import Mathlib

/-!
Shallow embedding of the limit order book from `src/Orderbook.h` and
`src/Orderbook.cpp`.

The C++ book state consists of
* `data_  : unordered_map<Price, LevelData>` (aggregate count/quantity per price),
* `bids_  : map<Price, list<OrderPointer>, greater<Price>>`,
* `asks_  : map<Price, list<OrderPointer>, less<Price>>`,
* `orders_: unordered_map<OrderId, OrderEntry>` where `OrderEntry` holds the order
  pointer and the list iterator.

Maps are embedded as association lists: the two `std::map`s as lists sorted by
the map's comparator (head = `begin()`, last = `rbegin()`), the unordered maps
as canonically key-sorted lists (their iteration order is unspecified in C++;
the canonical order is only observable in `CanFullyFill`, whose result does not
depend on it in the states the theorems below are about).  An `OrderEntry` is
embedded as the (side, price) of the order it points to: the iterator is
modelled by looking the (globally unique) order id up in the queue at that
side and price.  `Quantity` arithmetic in `LevelData` is embedded as exact
integer arithmetic (`Usings.h` is not under `src/`).  The C++ aliases map to
plain types: `Price` to `Int`, `Quantity` and `OrderId` to `Nat` (spelled out
literally so that arithmetic automation sees them).
-/

set_option linter.unusedVariables false

inductive Side
  | Buy
  | Sell
deriving DecidableEq

inductive OrderType
  | GoodTillCancel
  | GoodForDay
  | FillAndKill
  | FillOrKill
  | Market
deriving DecidableEq

/-- Modelled from the spec: `Order.h` is not under `src/`.  "Immutable identity
(order id, side, original type, price, initial quantity) plus mutable remaining
quantity." -/
structure Order where
  orderType : OrderType
  orderId : Nat
  side : Side
  price : Int
  initialQuantity : Nat
  remainingQuantity : Nat
deriving DecidableEq

/-- Modelled from the spec: filling reduces the remaining quantity.  The engine
only ever fills by the minimum of the two heads' remainings, so the quantity
never exceeds the remaining. -/
def Order.Fill (o : Order) (q : Nat) : Order :=
  { o with remainingQuantity := o.remainingQuantity - q }

/-- Modelled from the spec: "`remaining == 0` iff the order is fully filled." -/
def Order.IsFilled (o : Order) : Bool :=
  o.remainingQuantity == 0

/-- Modelled from the spec: a Market order is, on admission, rewritten to
Good-Till-Cancel at a synthetic price. -/
def Order.ToGoodTillCancel (o : Order) (p : Int) : Order :=
  { o with orderType := OrderType.GoodTillCancel, price := p }

/-- Modelled from the spec: `OrderModify.h` is not under `src/`.  "A modify
request that carries the new price/quantity/side for an existing id." -/
structure OrderModify where
  orderId : Nat
  side : Side
  price : Int
  quantity : Nat
deriving DecidableEq

/-- Modelled from the spec: the modify request is re-added "as a new admission
carrying the original type"; a fresh order starts with `remaining = initial`. -/
def OrderModify.ToOrderPointer (m : OrderModify) (t : OrderType) : Order :=
  ⟨t, m.orderId, m.side, m.price, m.quantity, m.quantity⟩

structure TradeInfo where
  orderId : Nat
  price : Int
  quantity : Nat
deriving DecidableEq

/-- A trade is a pair of fills: the bid side and the ask side. -/
structure Trade where
  bidTrade : TradeInfo
  askTrade : TradeInfo
deriving DecidableEq

/-- `Orderbook::LevelData`: per-price aggregate (summed quantity, order count). -/
structure LevelData where
  quantity : Int
  count : Int
deriving DecidableEq

/-- `Orderbook::LevelData::Action`. -/
inductive LevelAction
  | Add
  | Remove
  | Match
deriving DecidableEq

/-- `Orderbook::OrderEntry`, embedded as the side and price of the pointed-to
order (see the header comment). -/
structure OrderEntry where
  side : Side
  price : Int
deriving DecidableEq

/-- Association-list lookup, the embedding of `map::find` / `map::at`. -/
def lookupKey {α β : Type} [DecidableEq α] (k : α) : List (α × β) → Option β
  | [] => none
  | (k2, v) :: t => if k = k2 then some v else lookupKey k t

/-- Association-list key removal, the embedding of `map::erase(key)`. -/
def eraseKey {α β : Type} [DecidableEq α] (k : α) : List (α × β) → List (α × β)
  | [] => []
  | (k2, v) :: t => if k = k2 then t else (k2, v) :: eraseKey k t

/-- Ordered association-list insert-or-assign, the embedding of `map[k] = v`
for a map whose iteration order is given by `lt`. -/
def setKeySorted {α β : Type} [DecidableEq α] (lt : α → α → Bool) (k : α) (v : β) :
    List (α × β) → List (α × β)
  | [] => [(k, v)]
  | (k2, v2) :: t =>
    if lt k k2 then (k, v) :: (k2, v2) :: t
    else if k = k2 then (k, v) :: t
    else (k2, v2) :: setKeySorted lt k v t

def ltPrice (a b : Int) : Bool := decide (a < b)

def gtPrice (a b : Int) : Bool := decide (b < a)

def ltId (a b : Nat) : Bool := decide (a < b)

/-- The book state: `data_`, `bids_`, `asks_`, `orders_`. -/
structure Book where
  data : List (Int × LevelData)
  bids : List (Int × List Order)
  asks : List (Int × List Order)
  orders : List (Nat × OrderEntry)
deriving DecidableEq

def emptyBook : Book := ⟨[], [], [], []⟩

/-- `Orderbook::UpdateLevelData`.  `data_[price]` default-constructs a zero
entry; the count is bumped for Add/Remove, the quantity is added for Add and
subtracted for Remove/Match; a zero count erases the price key. -/
def UpdateLevelData (data : List (Int × LevelData)) (price : Int)
    (quantity : Nat) (action : LevelAction) : List (Int × LevelData) :=
  let d0 := (lookupKey price data).getD ⟨0, 0⟩
  let c := d0.count +
    (if action = LevelAction.Remove then -1 else if action = LevelAction.Add then 1 else 0)
  let q := if action = LevelAction.Remove ∨ action = LevelAction.Match then
      d0.quantity - (quantity : Int)
    else
      d0.quantity + (quantity : Int)
  if c = 0 then eraseKey price data else setKeySorted ltPrice price ⟨q, c⟩ data

/-- `Orderbook::CanMatch`: a Buy at `price` can match iff asks are non-empty and
`price ≥ best ask`; a Sell iff bids are non-empty and `price ≤ best bid`. -/
def CanMatch (b : Book) (side : Side) (price : Int) : Bool :=
  match side with
  | Side.Buy =>
    match b.asks with
    | [] => false
    | (bestAsk, _) :: _ => decide (bestAsk ≤ price)
  | Side.Sell =>
    match b.bids with
    | [] => false
    | (bestBid, _) :: _ => decide (price ≤ bestBid)

/-- The level-walking loop of `Orderbook::CanFullyFill`: skip levels outside the
opposite side's threshold, skip levels worse than the order price, succeed once
the accumulated level quantity reaches the requested quantity. -/
def canFullyFillLoop (side : Side) (threshold : Int) (price : Int) :
    List (Int × LevelData) → Int → Bool
  | [], _ => false
  | (levelPrice, levelData) :: t, quantity =>
    if (side = Side.Buy ∧ threshold > levelPrice) ∨
        (side = Side.Sell ∧ threshold < levelPrice) then
      canFullyFillLoop side threshold price t quantity
    else if (side = Side.Buy ∧ levelPrice > price) ∨
        (side = Side.Sell ∧ levelPrice < price) then
      canFullyFillLoop side threshold price t quantity
    else if quantity ≤ levelData.quantity then true
    else canFullyFillLoop side threshold price t (quantity - levelData.quantity)

/-- `Orderbook::CanFullyFill`.  The threshold is the opposite side's best price;
`CanMatch` guarantees that side is non-empty, so the `getD 0` default is never
read. -/
def CanFullyFill (b : Book) (side : Side) (price : Int) (quantity : Nat) : Bool :=
  if CanMatch b side price = false then false
  else
    let threshold : Int :=
      match side with
      | Side.Buy => ((b.asks.head?).map Prod.fst).getD 0
      | Side.Sell => ((b.bids.head?).map Prod.fst).getD 0
    canFullyFillLoop side threshold price b.data (quantity : Int)

/-- Result of the inner `while` of `Orderbook::MatchOrders`: the two top queues,
the aggregate table, the id index, and the emitted trades. -/
structure FillResult where
  bq : List Order
  aq : List Order
  data : List (Int × LevelData)
  orders : List (Nat × OrderEntry)
  trades : List Trade
deriving DecidableEq

/-- The inner `while (!bids.empty() && !asks.empty())` of `Orderbook::MatchOrders`,
with an explicit iteration bound.  Each iteration fills both heads by the
minimum of their remaining quantities, pops whichever is filled (erasing it
from the id index), emits the trade at the two orders' own prices, and updates
the aggregate at both prices.  Every iteration pops at least one order, so
`bq.length + aq.length` iterations always reach the loop's exit condition
(theorem `fillLoopF_exit` below). -/
def fillLoopF : Nat → List Order → List Order → List (Int × LevelData) →
    List (Nat × OrderEntry) → FillResult
  | 0, bq, aq, data, orders => ⟨bq, aq, data, orders, []⟩
  | _ + 1, [], aq, data, orders => ⟨[], aq, data, orders, []⟩
  | _ + 1, bid :: bq, [], data, orders => ⟨bid :: bq, [], data, orders, []⟩
  | f + 1, bid :: bq, ask :: aq, data, orders =>
    let quantity := min bid.remainingQuantity ask.remainingQuantity
    let bid2 := bid.Fill quantity
    let ask2 := ask.Fill quantity
    let bq2 := if bid2.IsFilled then bq else bid2 :: bq
    let orders2 := if bid2.IsFilled then eraseKey bid.orderId orders else orders
    let aq2 := if ask2.IsFilled then aq else ask2 :: aq
    let orders3 := if ask2.IsFilled then eraseKey ask.orderId orders2 else orders2
    let t : Trade := ⟨⟨bid2.orderId, bid2.price, quantity⟩, ⟨ask2.orderId, ask2.price, quantity⟩⟩
    let data2 := UpdateLevelData data bid2.price quantity
      (if bid2.IsFilled then LevelAction.Remove else LevelAction.Match)
    let data3 := UpdateLevelData data2 ask2.price quantity
      (if ask2.IsFilled then LevelAction.Remove else LevelAction.Match)
    let r := fillLoopF f bq2 aq2 data3 orders3
    ⟨r.bq, r.aq, r.data, r.orders, t :: r.trades⟩

/-- The inner loop invoked with its sufficient bound. -/
def fillLoop (bq aq : List Order) (data : List (Int × LevelData))
    (orders : List (Nat × OrderEntry)) : FillResult :=
  fillLoopF (bq.length + aq.length) bq aq data orders

def queuesLen : List (Int × List Order) → Nat
  | [] => 0
  | (_, q) :: t => q.length + queuesLen t

/-- Termination measure of the outer `while (true)` of `Orderbook::MatchOrders`:
total resident orders plus number of price levels. -/
def bookMeasure (b : Book) : Nat :=
  queuesLen b.bids + queuesLen b.asks + b.bids.length + b.asks.length

structure LoopResult where
  book : Book
  trades : List Trade
deriving DecidableEq

/-- The outer `while (true)` of `Orderbook::MatchOrders`, with an explicit
iteration bound.  Each pass exits if a side is empty or the best bid is below
the best ask, otherwise runs the inner loop on the two best queues, writes the
surviving queues back, and erases emptied price keys from the side map *and
from the aggregate table* (the unconditional `data_.erase` of the source).
Every pass strictly decreases `bookMeasure`, so `bookMeasure b` passes always
reach the exit condition (theorem `matchLoop_exit` below). -/
def matchLoopF : Nat → Book → LoopResult
  | 0, b => ⟨b, []⟩
  | f + 1, b =>
    match b.bids, b.asks with
    | [], _ => ⟨b, []⟩
    | _ :: _, [] => ⟨b, []⟩
    | (bidPrice, bidQ) :: _, (askPrice, askQ) :: _ =>
      if bidPrice < askPrice then ⟨b, []⟩
      else
        let r := fillLoop bidQ askQ b.data b.orders
        let bids2 := if r.bq.isEmpty then eraseKey bidPrice b.bids
          else setKeySorted gtPrice bidPrice r.bq b.bids
        let data2 := if r.bq.isEmpty then eraseKey bidPrice r.data else r.data
        let asks2 := if r.aq.isEmpty then eraseKey askPrice b.asks
          else setKeySorted ltPrice askPrice r.aq b.asks
        let data3 := if r.aq.isEmpty then eraseKey askPrice data2 else data2
        let b2 : Book := ⟨data3, bids2, asks2, r.orders⟩
        let rec2 := matchLoopF f b2
        ⟨rec2.book, r.trades ++ rec2.trades⟩

/-- Erase the first order with the given id from a queue: the embedding of
`orders.erase(iterator)`, the iterator being recovered from the globally
unique order id. -/
def eraseFirstById (i : Nat) : List Order → List Order
  | [] => []
  | o :: t => if o.orderId = i then t else o :: eraseFirstById i t

def findById (i : Nat) (q : List Order) : Option Order :=
  q.find? (fun o => o.orderId == i)

/-- `Orderbook::CancelOrderInternal`: no-op on a missing id; otherwise erase the
id-index entry, erase the order from its queue (dropping the price key if the
queue empties), and apply `Remove(remaining)` to the aggregate at the order's
price (`OnOrderCancelled`).  The `getD` default order is never read when the id
index is consistent with the queues. -/
def CancelOrderInternal (b : Book) (orderId : Nat) : Book :=
  match lookupKey orderId b.orders with
  | none => b
  | some entry =>
    let orders2 := eraseKey orderId b.orders
    match entry.side with
    | Side.Sell =>
      let q := (lookupKey entry.price b.asks).getD []
      let o := (findById orderId q).getD
        ⟨OrderType.GoodTillCancel, orderId, entry.side, entry.price, 0, 0⟩
      let q2 := eraseFirstById orderId q
      let asks2 := if q2.isEmpty then eraseKey entry.price b.asks
        else setKeySorted ltPrice entry.price q2 b.asks
      let data2 := UpdateLevelData b.data o.price o.remainingQuantity LevelAction.Remove
      ⟨data2, b.bids, asks2, orders2⟩
    | Side.Buy =>
      let q := (lookupKey entry.price b.bids).getD []
      let o := (findById orderId q).getD
        ⟨OrderType.GoodTillCancel, orderId, entry.side, entry.price, 0, 0⟩
      let q2 := eraseFirstById orderId q
      let bids2 := if q2.isEmpty then eraseKey entry.price b.bids
        else setKeySorted gtPrice entry.price q2 b.bids
      let data2 := UpdateLevelData b.data o.price o.remainingQuantity LevelAction.Remove
      ⟨data2, bids2, b.asks, orders2⟩

/-- `Orderbook::CancelOrder` (the public entry point; the lock is not part of
the functional model). -/
def CancelOrder (b : Book) (orderId : Nat) : Book :=
  CancelOrderInternal b orderId

/-- `Orderbook::CancelOrders`: cancel a batch of ids in order. -/
def CancelOrders (b : Book) (ids : List Nat) : Book :=
  ids.foldl CancelOrderInternal b

/-- `Orderbook::MatchOrders`: run the matching loop to quiescence, then cancel
the head order of each side if its type is FillAndKill (tail cleanup). -/
def MatchOrders (b : Book) : Book × List Trade :=
  let r := matchLoopF (bookMeasure b) b
  let b2 :=
    match r.book.bids with
    | (_, o :: _) :: _ =>
      if o.orderType = OrderType.FillAndKill then CancelOrderInternal r.book o.orderId
      else r.book
    | _ => r.book
  let b3 :=
    match b2.asks with
    | (_, o :: _) :: _ =>
      if o.orderType = OrderType.FillAndKill then CancelOrderInternal b2 o.orderId
      else b2
    | _ => b2
  (b3, r.trades)

/-- The insertion step of `Orderbook::AddOrder`: push the order at the tail of
its side's queue at its price, record the id-index entry, and apply
`Add(initial)` to the aggregate (`OnOrderAdded`). -/
def insertOrder (b : Book) (o : Order) : Book :=
  match o.side with
  | Side.Buy =>
    let q := (lookupKey o.price b.bids).getD []
    let bids2 := setKeySorted gtPrice o.price (q ++ [o]) b.bids
    let orders2 := setKeySorted ltId o.orderId ⟨o.side, o.price⟩ b.orders
    let data2 := UpdateLevelData b.data o.price o.initialQuantity LevelAction.Add
    ⟨data2, bids2, b.asks, orders2⟩
  | Side.Sell =>
    let q := (lookupKey o.price b.asks).getD []
    let asks2 := setKeySorted ltPrice o.price (q ++ [o]) b.asks
    let orders2 := setKeySorted ltId o.orderId ⟨o.side, o.price⟩ b.orders
    let data2 := UpdateLevelData b.data o.price o.initialQuantity LevelAction.Add
    ⟨data2, b.bids, asks2, orders2⟩

/-- `Orderbook::AddOrder`: duplicate ids are rejected; a Market order is
rewritten to GoodTillCancel at the worst opposing price (`rbegin()` of the
opposite map) or rejected if the opposite side is empty; a FillAndKill order
that cannot cross and a FillOrKill order that cannot fully fill are rejected;
otherwise the order is inserted and the matching loop runs. -/
def AddOrder (b : Book) (o : Order) : Book × List Trade :=
  if (lookupKey o.orderId b.orders).isSome then (b, [])
  else
    let rewritten : Option Order :=
      if o.orderType = OrderType.Market then
        match o.side with
        | Side.Buy =>
          match b.asks.getLast? with
          | some (worstAsk, _) => some (o.ToGoodTillCancel worstAsk)
          | none => none
        | Side.Sell =>
          match b.bids.getLast? with
          | some (worstBid, _) => some (o.ToGoodTillCancel worstBid)
          | none => none
      else some o
    match rewritten with
    | none => (b, [])
    | some o2 =>
      if o2.orderType = OrderType.FillAndKill ∧ CanMatch b o2.side o2.price = false then
        (b, [])
      else if o2.orderType = OrderType.FillOrKill ∧
          CanFullyFill b o2.side o2.price o2.initialQuantity = false then
        (b, [])
      else
        MatchOrders (insertOrder b o2)

/-- The side map (`bids_` or `asks_`) selected by a side. -/
def sideQueues (b : Book) : Side → List (Int × List Order)
  | Side.Buy => b.bids
  | Side.Sell => b.asks

/-- Recover the resident order's type through the id index, the embedding of
`orders_.at(id).order_->GetOrderType()`. -/
def orderTypeOf (b : Book) (i : Nat) : OrderType :=
  match lookupKey i b.orders with
  | none => OrderType.GoodTillCancel
  | some e =>
    ((findById i ((lookupKey e.price (sideQueues b e.side)).getD [])).getD
      ⟨OrderType.GoodTillCancel, i, e.side, e.price, 0, 0⟩).orderType

/-- `Orderbook::ModifyOrder`: empty trades on a missing id; otherwise read the
existing order's type, cancel the id, and re-add the modify request as a fresh
order carrying the original type. -/
def ModifyOrder (b : Book) (m : OrderModify) : Book × List Trade :=
  match lookupKey m.orderId b.orders with
  | none => (b, [])
  | some _ =>
    let t := orderTypeOf b m.orderId
    let b2 := CancelOrder b m.orderId
    AddOrder b2 (m.ToOrderPointer t)

/-- `Orderbook::Size`. -/
def Size (b : Book) : Nat :=
  b.orders.length

def sumRem : List Order → Nat
  | [] => 0
  | o :: t => o.remainingQuantity + sumRem t

structure LevelInfo where
  price : Int
  quantity : Nat
deriving DecidableEq

/-- `Orderbook::GetOrderInfos`: per-level price and summed remaining quantity,
computed from the queues. -/
def GetOrderInfos (b : Book) : List LevelInfo × List LevelInfo :=
  (b.bids.map (fun pq => ⟨pq.1, sumRem pq.2⟩),
   b.asks.map (fun pq => ⟨pq.1, sumRem pq.2⟩))

/-- Ids of all orders resident in some queue of a side map. -/
def queueIds : List (Int × List Order) → List Nat
  | [] => []
  | (_, q) :: t => q.map Order.orderId ++ queueIds t

/-- An id is resident when it is in the id index or in some queue. -/
def Resident (b : Book) (i : Nat) : Prop :=
  (lookupKey i b.orders).isSome = true ∨ i ∈ queueIds b.bids ∨ i ∈ queueIds b.asks

instance (b : Book) (i : Nat) : Decidable (Resident b i) := by
  unfold Resident
  infer_instance

/-- Sum of the bid-side fill quantities over a trade list. -/
def sumTradeQty : List Trade → Nat
  | [] => 0
  | t :: ts => t.bidTrade.quantity + sumTradeQty ts

-- Sanity checks: the end-to-end scenarios of spec §8, evaluated on the model.

example :
    let b1 := (AddOrder emptyBook ⟨OrderType.GoodTillCancel, 1, Side.Buy, 100, 10, 10⟩).1
    Size b1 = 1 ∧ (GetOrderInfos b1).1 = [⟨100, 10⟩] ∧
      Size (CancelOrder b1 1) = 0 ∧ (GetOrderInfos (CancelOrder b1 1)).1 = [] := by
  decide

example :
    let b1 := (AddOrder emptyBook ⟨OrderType.GoodTillCancel, 10, Side.Sell, 101, 5, 5⟩).1
    let b2 := (AddOrder b1 ⟨OrderType.GoodTillCancel, 11, Side.Sell, 102, 5, 5⟩).1
    let r := AddOrder b2 ⟨OrderType.GoodTillCancel, 20, Side.Buy, 102, 8, 8⟩
    r.2 = [⟨⟨20, 102, 5⟩, ⟨10, 101, 5⟩⟩, ⟨⟨20, 102, 3⟩, ⟨11, 102, 3⟩⟩] ∧
      Size r.1 = 1 := by
  decide

example :
    let b1 := (AddOrder emptyBook ⟨OrderType.GoodTillCancel, 30, Side.Sell, 100, 5, 5⟩).1
    let r := AddOrder b1 ⟨OrderType.FillOrKill, 31, Side.Buy, 100, 10, 10⟩
    r.2 = [] ∧ Size r.1 = 1 := by
  decide

example :
    let b1 := (AddOrder emptyBook ⟨OrderType.GoodTillCancel, 40, Side.Sell, 100, 5, 5⟩).1
    let r := AddOrder b1 ⟨OrderType.FillAndKill, 41, Side.Buy, 100, 10, 10⟩
    r.2 = [⟨⟨41, 100, 5⟩, ⟨40, 100, 5⟩⟩] ∧ Size r.1 = 0 := by
  decide

example :
    let r := AddOrder emptyBook ⟨OrderType.Market, 50, Side.Buy, 0, 1, 1⟩
    r.2 = [] ∧ Size r.1 = 0 := by
  decide

/-! Basic lemmas about the association-list map operations. -/

theorem lookupKey_not_mem {α β : Type} [DecidableEq α] (k : α) (l : List (α × β))
    (h : k ∉ l.map Prod.fst) : lookupKey k l = none := by
  induction l with
  | nil => rfl
  | cons hd t ih =>
    obtain ⟨k2, v⟩ := hd
    simp only [List.map_cons, List.mem_cons, not_or] at h
    simp only [lookupKey, if_neg h.1]
    exact ih h.2

theorem lookupKey_eraseKey_self {α β : Type} [DecidableEq α] (k : α)
    (l : List (α × β)) (h : (l.map Prod.fst).Nodup) :
    lookupKey k (eraseKey k l) = none := by
  induction l with
  | nil => rfl
  | cons hd t ih =>
    obtain ⟨k2, v⟩ := hd
    simp only [List.map_cons, List.nodup_cons] at h
    by_cases hk : k = k2
    · subst hk
      simp only [eraseKey, if_pos rfl]
      exact lookupKey_not_mem k t h.1
    · simp only [eraseKey, if_neg hk, lookupKey, if_neg hk]
      exact ih h.2

theorem lookupKey_eraseKey_ne {α β : Type} [DecidableEq α] (k k2 : α)
    (l : List (α × β)) (h : k2 ≠ k) :
    lookupKey k2 (eraseKey k l) = lookupKey k2 l := by
  induction l with
  | nil => rfl
  | cons hd t ih =>
    obtain ⟨k3, v⟩ := hd
    by_cases hk : k = k3
    · subst hk
      simp [eraseKey, lookupKey, h]
    · simp only [eraseKey, if_neg hk, lookupKey]
      by_cases hk2 : k2 = k3
      · rw [if_pos hk2, if_pos hk2]
      · rw [if_neg hk2, if_neg hk2]
        exact ih

theorem lookupKey_setKeySorted_self {α β : Type} [DecidableEq α]
    (lt : α → α → Bool) (k : α) (v : β) (l : List (α × β)) :
    lookupKey k (setKeySorted lt k v l) = some v := by
  induction l with
  | nil => simp [setKeySorted, lookupKey]
  | cons hd t ih =>
    obtain ⟨k2, v2⟩ := hd
    simp only [setKeySorted]
    by_cases hlt : lt k k2 = true
    · rw [if_pos hlt]
      simp [lookupKey]
    · rw [if_neg hlt]
      by_cases hk : k = k2
      · rw [if_pos hk]
        simp [lookupKey]
      · rw [if_neg hk]
        simp only [lookupKey, if_neg hk]
        exact ih

theorem lookupKey_setKeySorted_ne {α β : Type} [DecidableEq α]
    (lt : α → α → Bool) (k k2 : α) (v : β) (l : List (α × β)) (h : k2 ≠ k) :
    lookupKey k2 (setKeySorted lt k v l) = lookupKey k2 l := by
  induction l with
  | nil => simp [setKeySorted, lookupKey, if_neg h]
  | cons hd t ih =>
    obtain ⟨k3, v3⟩ := hd
    simp only [setKeySorted]
    by_cases hlt : lt k k3 = true
    · rw [if_pos hlt]
      simp only [lookupKey, if_neg h]
    · rw [if_neg hlt]
      by_cases hk : k = k3
      · rw [if_pos hk]
        subst hk
        simp only [lookupKey, if_neg h]
      · rw [if_neg hk]
        simp only [lookupKey]
        by_cases hk2 : k2 = k3
        · rw [if_pos hk2, if_pos hk2]
        · rw [if_neg hk2, if_neg hk2]
          exact ih

theorem eraseKey_map_fst_sublist {α β : Type} [DecidableEq α] (k : α)
    (l : List (α × β)) :
    ((eraseKey k l).map Prod.fst).Sublist (l.map Prod.fst) := by
  induction l with
  | nil => simp [eraseKey]
  | cons hd t ih =>
    obtain ⟨k2, v⟩ := hd
    by_cases hk : k = k2
    · simp only [eraseKey, if_pos hk, List.map_cons]
      exact List.sublist_cons_self _ _
    · simp only [eraseKey, if_neg hk, List.map_cons]
      exact ih.cons₂ _

theorem nodup_eraseKey {α β : Type} [DecidableEq α] (k : α) (l : List (α × β))
    (h : (l.map Prod.fst).Nodup) : ((eraseKey k l).map Prod.fst).Nodup :=
  (eraseKey_map_fst_sublist k l).nodup h

/-- A small concrete book used by witnesses: one resident GTC bid, id 1,
price 100, quantity 10. -/
def wBook1 : Book :=
  (AddOrder emptyBook ⟨OrderType.GoodTillCancel, 1, Side.Buy, 100, 10, 10⟩).1

theorem cancelOrderInternal_of_none (b : Book) (i : Nat)
    (h : lookupKey i b.orders = none) : CancelOrderInternal b i = b := by
  unfold CancelOrderInternal
  rw [h]

theorem cancelOrderInternal_orders_eq (b : Book) (i : Nat) (e : OrderEntry)
    (h : lookupKey i b.orders = some e) :
    (CancelOrderInternal b i).orders = eraseKey i b.orders := by
  obtain ⟨s, p⟩ := e
  unfold CancelOrderInternal
  rw [h]
  cases s <;> rfl

/-- The book reached from the empty book by `AddOrder` of a GTC Buy (id 1,
price 100, quantity 10) and then `AddOrder` of a GTC Sell (id 2, price 100,
quantity 5): the two orders share price 100, the sell matches 5 units, and the
bid stays resident with remaining 5. -/
def sharedPriceBook : Book :=
  (AddOrder
    (AddOrder emptyBook ⟨OrderType.GoodTillCancel, 1, Side.Buy, 100, 10, 10⟩).1
    ⟨OrderType.GoodTillCancel, 2, Side.Sell, 100, 5, 5⟩).1

/-- C1: the stated aggregate-table invariant is violated by the source.  From
the empty book, `AddOrder` of a GTC Buy (id 1, price 100, quantity 10) and then
`AddOrder` of a GTC Sell (id 2, price 100, quantity 5) matches 5 units and
leaves bid id 1 resident at price 100 with remaining 5, yet the unconditional
`data_.erase(askPrice)` of `MatchOrders` has removed the aggregate entry at
price 100 entirely: the claim requires count 1 and quantity 5 there. -/
theorem aggregateInvariantViolatedAtSharedPrice :
    lookupKey (100 : Int) sharedPriceBook.bids =
        some [⟨OrderType.GoodTillCancel, 1, Side.Buy, 100, 10, 5⟩] ∧
      lookupKey (100 : Int) sharedPriceBook.data = none := by
  decide

/-- C9: `AddOrder` of an order whose id already exists in the id index returns
an empty trade list and leaves every component of the book unchanged. -/
theorem addOrder_duplicate_noop (b : Book) (o : Order)
    (h : (lookupKey o.orderId b.orders).isSome = true) :
    AddOrder b o = (b, []) := by
  unfold AddOrder
  rw [if_pos h]

theorem addOrder_duplicate_noop_witness :
    AddOrder wBook1 ⟨OrderType.GoodTillCancel, 1, Side.Sell, 90, 4, 4⟩ = (wBook1, []) :=
  addOrder_duplicate_noop wBook1 ⟨OrderType.GoodTillCancel, 1, Side.Sell, 90, 4, 4⟩
    (by decide)

/-- C7: `AddOrder` of a Market order with a non-empty opposing side behaves
exactly like `AddOrder` of the same order rewritten to GoodTillCancel at the
worst opposing price (the last key of the opposing map, i.e. the highest ask
for a Buy and the lowest bid for a Sell); with an empty opposing side it
returns an empty trade list and leaves the book unchanged. -/
theorem addOrder_market_admission (b : Book) (o : Order)
    (h : o.orderType = OrderType.Market) :
    (∀ pq : Int × List Order, o.side = Side.Buy → b.asks.getLast? = some pq →
      AddOrder b o = AddOrder b (o.ToGoodTillCancel pq.1)) ∧
    (∀ pq : Int × List Order, o.side = Side.Sell → b.bids.getLast? = some pq →
      AddOrder b o = AddOrder b (o.ToGoodTillCancel pq.1)) ∧
    (o.side = Side.Buy → b.asks = [] → AddOrder b o = (b, [])) ∧
    (o.side = Side.Sell → b.bids = [] → AddOrder b o = (b, [])) := by
  refine ⟨?_, ?_, ?_, ?_⟩
  · rintro ⟨wp, wq⟩ hs hl
    by_cases hd : (lookupKey o.orderId b.orders).isSome = true
    · unfold AddOrder
      simp [Order.ToGoodTillCancel, hd]
    · unfold AddOrder
      simp only [Order.ToGoodTillCancel]
      simp [hd, h, hs, hl, Order.ToGoodTillCancel]
  · rintro ⟨wp, wq⟩ hs hl
    by_cases hd : (lookupKey o.orderId b.orders).isSome = true
    · unfold AddOrder
      simp [Order.ToGoodTillCancel, hd]
    · unfold AddOrder
      simp [hd, h, hs, hl, Order.ToGoodTillCancel]
  · intro hs hl
    by_cases hd : (lookupKey o.orderId b.orders).isSome = true
    · unfold AddOrder
      simp [hd]
    · unfold AddOrder
      simp [hd, h, hs, hl]
  · intro hs hl
    by_cases hd : (lookupKey o.orderId b.orders).isSome = true
    · unfold AddOrder
      simp [hd]
    · unfold AddOrder
      simp [hd, h, hs, hl]

theorem addOrder_market_admission_witness :
    AddOrder emptyBook ⟨OrderType.Market, 50, Side.Buy, 0, 1, 1⟩ = (emptyBook, []) :=
  (addOrder_market_admission emptyBook ⟨OrderType.Market, 50, Side.Buy, 0, 1, 1⟩
    rfl).2.2.1 rfl rfl

/-- C5: when the id is resident (the id index holds entry `e` and the queue at
`e` holds the order `o`), `ModifyOrder` produces exactly the result of
`CancelOrder(id)` followed by `AddOrder` of a fresh order with the request's
side, price and quantity and the original order's type; when the id is absent
it returns an empty trade list and leaves the book unchanged. -/
theorem modifyOrder_eq_cancel_add (b : Book) (m : OrderModify) :
    (∀ e o, lookupKey m.orderId b.orders = some e →
      findById m.orderId ((lookupKey e.price (sideQueues b e.side)).getD []) = some o →
      ModifyOrder b m =
        AddOrder (CancelOrder b m.orderId) (m.ToOrderPointer o.orderType)) ∧
    (lookupKey m.orderId b.orders = none → ModifyOrder b m = (b, [])) := by
  constructor
  · intro e o he ho
    have ht : orderTypeOf b m.orderId = o.orderType := by
      simp only [orderTypeOf, he, ho, Option.getD_some]
    unfold ModifyOrder
    rw [he]
    simp only [ht]
  · intro he
    unfold ModifyOrder
    rw [he]

theorem modifyOrder_eq_cancel_add_witness :
    ModifyOrder wBook1 ⟨1, Side.Sell, 105, 7⟩ =
      AddOrder (CancelOrder wBook1 1)
        (OrderModify.ToOrderPointer ⟨1, Side.Sell, 105, 7⟩ OrderType.GoodTillCancel) :=
  (modifyOrder_eq_cancel_add wBook1 ⟨1, Side.Sell, 105, 7⟩).1
    ⟨Side.Buy, 100⟩ ⟨OrderType.GoodTillCancel, 1, Side.Buy, 100, 10, 10⟩
    (by decide) (by decide)

/-- C8: `CancelOrder` is idempotent — when the id-index keys are duplicate-free
(as they are in every reachable book), cancelling the same id twice produces
the same book as cancelling it once, and cancelling an id absent from the id
index leaves the book (queues, id index, aggregates) unchanged. -/
theorem cancelOrder_idempotent (b : Book) (i : Nat)
    (hnd : (b.orders.map Prod.fst).Nodup) :
    CancelOrder (CancelOrder b i) i = CancelOrder b i ∧
    (lookupKey i b.orders = none → CancelOrder b i = b) := by
  constructor
  · cases hl : lookupKey i b.orders with
    | none =>
      have h1 : CancelOrder b i = b := cancelOrderInternal_of_none b i hl
      rw [h1]
      exact h1
    | some e =>
      have h3 : lookupKey i (CancelOrderInternal b i).orders = none := by
        rw [cancelOrderInternal_orders_eq b i e hl]
        exact lookupKey_eraseKey_self i b.orders hnd
      exact cancelOrderInternal_of_none (CancelOrderInternal b i) i h3
  · intro he
    exact cancelOrderInternal_of_none b i he

theorem cancelOrder_idempotent_witness :
    CancelOrder (CancelOrder wBook1 1) 1 = CancelOrder wBook1 1 :=
  (cancelOrder_idempotent wBook1 1 (by decide)).1

/-! Structural lemmas about the matching loops. -/

def queuesSumRem : List (Int × List Order) → Nat
  | [] => 0
  | (_, q) :: t => sumRem q + queuesSumRem t

/-- Total remaining quantity resident in the book's queues. -/
def totalRem (b : Book) : Nat :=
  queuesSumRem b.bids + queuesSumRem b.asks

/-- The exit condition of the outer matching loop: a side is empty or the best
bid is below the best ask. -/
def loopDoneB (b : Book) : Bool :=
  match b.bids, b.asks with
  | [], _ => true
  | _ :: _, [] => true
  | (bp, _) :: _, (ap, _) :: _ => decide (bp < ap)

/-- `o` is `o2` with the same identity (id, price, side, type) and possibly a
smaller remaining quantity: the relation between an order after some fills and
the same order before them. -/
def WeakensTo (o o2 : Order) : Prop :=
  o.orderId = o2.orderId ∧ o.price = o2.price ∧ o.side = o2.side ∧
  o.orderType = o2.orderType ∧ o.remainingQuantity ≤ o2.remainingQuantity

theorem weakensTo_refl (o : Order) : WeakensTo o o :=
  ⟨rfl, rfl, rfl, rfl, Nat.le_refl _⟩

theorem weakensTo_trans {o o2 o3 : Order} (h : WeakensTo o o2) (h2 : WeakensTo o2 o3) :
    WeakensTo o o3 :=
  ⟨h.1.trans h2.1, h.2.1.trans h2.2.1, h.2.2.1.trans h2.2.2.1,
   h.2.2.2.1.trans h2.2.2.2.1, h.2.2.2.2.trans h2.2.2.2.2⟩

theorem fill_weakensTo (o : Order) (q : Nat) : WeakensTo (o.Fill q) o :=
  ⟨rfl, rfl, rfl, rfl, Nat.sub_le _ _⟩

/-- The queue-and-trade projection of the inner matching loop.  The inner loop
reads only the two queues; `fillLoopF_eq_fillQT` below shows its queue and
trade outputs agree with this projection for every aggregate table and id
index. -/
structure QTResult where
  bq : List Order
  aq : List Order
  trades : List Trade
deriving DecidableEq

def fillQT : Nat → List Order → List Order → QTResult
  | 0, bq, aq => ⟨bq, aq, []⟩
  | _ + 1, [], aq => ⟨[], aq, []⟩
  | _ + 1, bid :: bq, [] => ⟨bid :: bq, [], []⟩
  | f + 1, bid :: bq, ask :: aq =>
    let quantity := min bid.remainingQuantity ask.remainingQuantity
    let bid2 := bid.Fill quantity
    let ask2 := ask.Fill quantity
    let bq2 := if bid2.IsFilled then bq else bid2 :: bq
    let aq2 := if ask2.IsFilled then aq else ask2 :: aq
    let t : Trade := ⟨⟨bid2.orderId, bid2.price, quantity⟩, ⟨ask2.orderId, ask2.price, quantity⟩⟩
    let r := fillQT f bq2 aq2
    ⟨r.bq, r.aq, t :: r.trades⟩

theorem fillLoopF_eq_fillQT (f : Nat) : ∀ (bq aq : List Order)
    (d : List (Int × LevelData)) (os : List (Nat × OrderEntry)),
    (fillLoopF f bq aq d os).bq = (fillQT f bq aq).bq ∧
    (fillLoopF f bq aq d os).aq = (fillQT f bq aq).aq ∧
    (fillLoopF f bq aq d os).trades = (fillQT f bq aq).trades := by
  induction f with
  | zero =>
    intro bq aq d os
    exact ⟨rfl, rfl, rfl⟩
  | succ f ih =>
    intro bq aq d os
    cases bq with
    | nil => exact ⟨rfl, rfl, rfl⟩
    | cons bid bqt =>
      cases aq with
      | nil => exact ⟨rfl, rfl, rfl⟩
      | cons ask aqt =>
        dsimp only [fillLoopF, fillQT]
        exact ⟨(ih _ _ _ _).1, (ih _ _ _ _).2.1, by rw [(ih _ _ _ _).2.2]⟩

/-- Combined structural facts about the inner matching loop: quantity
conservation, queue shrinkage, identity preservation of surviving orders,
the shape of emitted trades, and positivity. -/
theorem fillQT_main (f : Nat) : ∀ (bq aq : List Order),
    (sumRem bq + sumRem aq =
      sumRem (fillQT f bq aq).bq + sumRem (fillQT f bq aq).aq +
        2 * sumTradeQty (fillQT f bq aq).trades) ∧
    ((fillQT f bq aq).bq.length + (fillQT f bq aq).aq.length ≤ bq.length + aq.length) ∧
    (∀ o ∈ (fillQT f bq aq).bq, ∃ o2 ∈ bq, WeakensTo o o2) ∧
    (∀ o ∈ (fillQT f bq aq).aq, ∃ o2 ∈ aq, WeakensTo o o2) ∧
    (∀ t ∈ (fillQT f bq aq).trades,
      t.bidTrade.quantity = t.askTrade.quantity ∧
      (∃ o2 ∈ bq, t.bidTrade.orderId = o2.orderId ∧ t.bidTrade.price = o2.price) ∧
      (∃ o2 ∈ aq, t.askTrade.orderId = o2.orderId ∧ t.askTrade.price = o2.price)) ∧
    ((∀ o ∈ bq, 0 < o.remainingQuantity) → (∀ o ∈ aq, 0 < o.remainingQuantity) →
      (∀ t ∈ (fillQT f bq aq).trades, 0 < t.bidTrade.quantity) ∧
      (∀ o ∈ (fillQT f bq aq).bq, 0 < o.remainingQuantity) ∧
      (∀ o ∈ (fillQT f bq aq).aq, 0 < o.remainingQuantity)) := by
  induction f with
  | zero =>
    intro bq aq
    refine ⟨by simp [fillQT, sumTradeQty], by simp [fillQT], ?_, ?_, ?_, ?_⟩
    · intro o ho
      exact ⟨o, ho, weakensTo_refl o⟩
    · intro o ho
      exact ⟨o, ho, weakensTo_refl o⟩
    · intro t ht
      simp [fillQT] at ht
    · intro hb ha
      exact ⟨fun t ht => by simp [fillQT] at ht, hb, ha⟩
  | succ f ih =>
    intro bq aq
    cases bq with
    | nil =>
      refine ⟨by simp [fillQT, sumTradeQty], by simp [fillQT], ?_, ?_, ?_, ?_⟩
      · intro o ho
        simp [fillQT] at ho
      · intro o ho
        exact ⟨o, ho, weakensTo_refl o⟩
      · intro t ht
        simp [fillQT] at ht
      · intro hb ha
        exact ⟨fun t ht => by simp [fillQT] at ht, fun o ho => by simp [fillQT] at ho, ha⟩
    | cons bid bqt =>
      cases aq with
      | nil =>
        refine ⟨by simp [fillQT, sumTradeQty], by simp [fillQT], ?_, ?_, ?_, ?_⟩
        · intro o ho
          simp only [fillQT] at ho
          exact ⟨o, ho, weakensTo_refl o⟩
        · intro o ho
          simp [fillQT] at ho
        · intro t ht
          simp [fillQT] at ht
        · intro hb ha
          refine ⟨fun t ht => by simp [fillQT] at ht, ?_, fun o ho => by simp [fillQT] at ho⟩
          intro o ho
          simp only [fillQT] at ho
          exact hb o ho
      | cons ask aqt =>
        dsimp only [fillQT]
        generalize hq : min bid.remainingQuantity ask.remainingQuantity = q
        have hqb : q ≤ bid.remainingQuantity := hq ▸ Nat.min_le_left _ _
        have hqa : q ≤ ask.remainingQuantity := hq ▸ Nat.min_le_right _ _
        have hqor : q = bid.remainingQuantity ∨ q = ask.remainingQuantity := by
          rcases Nat.le_total bid.remainingQuantity ask.remainingQuantity with hc | hc
          · rw [← hq, Nat.min_eq_left hc]
            exact Or.inl rfl
          · rw [← hq, Nat.min_eq_right hc]
            exact Or.inr rfl
        set bid2 := bid.Fill q with hbid2
        set ask2 := ask.Fill q with hask2
        have eb : bid2.remainingQuantity = bid.remainingQuantity - q := rfl
        have ea : ask2.remainingQuantity = ask.remainingQuantity - q := rfl
        have ebid : bid2.orderId = bid.orderId := rfl
        have ebp : bid2.price = bid.price := rfl
        have eaid : ask2.orderId = ask.orderId := rfl
        have eap : ask2.price = ask.price := rfl
        have hw2b : WeakensTo bid2 bid := by rw [hbid2]; exact fill_weakensTo bid q
        have hw2a : WeakensTo ask2 ask := by rw [hask2]; exact fill_weakensTo ask q
        by_cases hbf : bid2.IsFilled = true
        · by_cases haf : ask2.IsFilled = true
          · -- both heads filled and popped
            rw [if_pos hbf, if_pos haf]
            simp only [Order.IsFilled, beq_iff_eq] at hbf haf
            obtain ⟨A, B, C, D, E, F⟩ := ih bqt aqt
            refine ⟨?_, ?_, ?_, ?_, ?_, ?_⟩
            · simp only [sumRem, sumTradeQty]
              omega
            · simp only [List.length_cons]
              omega
            · intro o ho
              obtain ⟨o2, ho2, hw⟩ := C o ho
              exact ⟨o2, List.mem_cons_of_mem _ ho2, hw⟩
            · intro o ho
              obtain ⟨o2, ho2, hw⟩ := D o ho
              exact ⟨o2, List.mem_cons_of_mem _ ho2, hw⟩
            · intro t ht
              rcases List.mem_cons.mp ht with h1 | h1
              · subst h1
                exact ⟨rfl, ⟨bid, List.mem_cons_self _ _, ebid, ebp⟩,
                  ⟨ask, List.mem_cons_self _ _, eaid, eap⟩⟩
              · obtain ⟨he, ⟨o2, ho2, hid, hp⟩, ⟨o3, ho3, hid3, hp3⟩⟩ := E t h1
                exact ⟨he, ⟨o2, List.mem_cons_of_mem _ ho2, hid, hp⟩,
                  ⟨o3, List.mem_cons_of_mem _ ho3, hid3, hp3⟩⟩
            · intro hpb hpa
              have hq0 : 0 < q := by
                have h1 := hpb bid (List.mem_cons_self _ _)
                have h2 := hpa ask (List.mem_cons_self _ _)
                omega
              obtain ⟨F1, F2, F3⟩ := F (fun o ho => hpb o (List.mem_cons_of_mem _ ho))
                (fun o ho => hpa o (List.mem_cons_of_mem _ ho))
              refine ⟨?_, F2, F3⟩
              intro t ht
              rcases List.mem_cons.mp ht with h1 | h1
              · subst h1
                exact hq0
              · exact F1 t h1
          · -- bid filled and popped, ask survives
            rw [if_pos hbf, if_neg haf]
            simp only [Order.IsFilled, beq_iff_eq] at hbf haf
            obtain ⟨A, B, C, D, E, F⟩ := ih bqt (ask2 :: aqt)
            refine ⟨?_, ?_, ?_, ?_, ?_, ?_⟩
            · simp only [sumRem, sumTradeQty] at A ⊢
              omega
            · simp only [List.length_cons] at B ⊢
              omega
            · intro o ho
              obtain ⟨o2, ho2, hw⟩ := C o ho
              exact ⟨o2, List.mem_cons_of_mem _ ho2, hw⟩
            · intro o ho
              obtain ⟨o2, ho2, hw⟩ := D o ho
              rcases List.mem_cons.mp ho2 with h1 | h1
              · subst h1
                exact ⟨ask, List.mem_cons_self _ _, weakensTo_trans hw hw2a⟩
              · exact ⟨o2, List.mem_cons_of_mem _ h1, hw⟩
            · intro t ht
              rcases List.mem_cons.mp ht with h1 | h1
              · subst h1
                exact ⟨rfl, ⟨bid, List.mem_cons_self _ _, ebid, ebp⟩,
                  ⟨ask, List.mem_cons_self _ _, eaid, eap⟩⟩
              · obtain ⟨he, ⟨o2, ho2, hid, hp⟩, ⟨o3, ho3, hid3, hp3⟩⟩ := E t h1
                refine ⟨he, ⟨o2, List.mem_cons_of_mem _ ho2, hid, hp⟩, ?_⟩
                rcases List.mem_cons.mp ho3 with h2 | h2
                · subst h2
                  exact ⟨ask, List.mem_cons_self _ _, hid3.trans eaid, hp3.trans eap⟩
                · exact ⟨o3, List.mem_cons_of_mem _ h2, hid3, hp3⟩
            · intro hpb hpa
              have hq0 : 0 < q := by
                have h1 := hpb bid (List.mem_cons_self _ _)
                have h2 := hpa ask (List.mem_cons_self _ _)
                omega
              obtain ⟨F1, F2, F3⟩ := F (fun o ho => hpb o (List.mem_cons_of_mem _ ho))
                (by
                  intro o ho
                  rcases List.mem_cons.mp ho with h1 | h1
                  · subst h1
                    omega
                  · exact hpa o (List.mem_cons_of_mem _ h1))
              refine ⟨?_, F2, F3⟩
              intro t ht
              rcases List.mem_cons.mp ht with h1 | h1
              · subst h1
                exact hq0
              · exact F1 t h1
        · by_cases haf : ask2.IsFilled = true
          · -- ask filled and popped, bid survives
            rw [if_neg hbf, if_pos haf]
            simp only [Order.IsFilled, beq_iff_eq] at hbf haf
            obtain ⟨A, B, C, D, E, F⟩ := ih (bid2 :: bqt) aqt
            refine ⟨?_, ?_, ?_, ?_, ?_, ?_⟩
            · simp only [sumRem, sumTradeQty] at A ⊢
              omega
            · simp only [List.length_cons] at B ⊢
              omega
            · intro o ho
              obtain ⟨o2, ho2, hw⟩ := C o ho
              rcases List.mem_cons.mp ho2 with h1 | h1
              · subst h1
                exact ⟨bid, List.mem_cons_self _ _, weakensTo_trans hw hw2b⟩
              · exact ⟨o2, List.mem_cons_of_mem _ h1, hw⟩
            · intro o ho
              obtain ⟨o2, ho2, hw⟩ := D o ho
              exact ⟨o2, List.mem_cons_of_mem _ ho2, hw⟩
            · intro t ht
              rcases List.mem_cons.mp ht with h1 | h1
              · subst h1
                exact ⟨rfl, ⟨bid, List.mem_cons_self _ _, ebid, ebp⟩,
                  ⟨ask, List.mem_cons_self _ _, eaid, eap⟩⟩
              · obtain ⟨he, ⟨o2, ho2, hid, hp⟩, ⟨o3, ho3, hid3, hp3⟩⟩ := E t h1
                refine ⟨he, ?_, ⟨o3, List.mem_cons_of_mem _ ho3, hid3, hp3⟩⟩
                rcases List.mem_cons.mp ho2 with h2 | h2
                · subst h2
                  exact ⟨bid, List.mem_cons_self _ _, hid.trans ebid, hp.trans ebp⟩
                · exact ⟨o2, List.mem_cons_of_mem _ h2, hid, hp⟩
            · intro hpb hpa
              have hq0 : 0 < q := by
                have h1 := hpb bid (List.mem_cons_self _ _)
                have h2 := hpa ask (List.mem_cons_self _ _)
                omega
              obtain ⟨F1, F2, F3⟩ := F
                (by
                  intro o ho
                  rcases List.mem_cons.mp ho with h1 | h1
                  · subst h1
                    omega
                  · exact hpb o (List.mem_cons_of_mem _ h1))
                (fun o ho => hpa o (List.mem_cons_of_mem _ ho))
              refine ⟨?_, F2, F3⟩
              intro t ht
              rcases List.mem_cons.mp ht with h1 | h1
              · subst h1
                exact hq0
              · exact F1 t h1
          · -- impossible: the minimum fill empties at least one head
            exfalso
            simp only [Order.IsFilled, beq_iff_eq] at hbf haf
            omega

theorem lookupKey_eraseKey_none {α β : Type} [DecidableEq α] (k k2 : α)
    (l : List (α × β)) (h : lookupKey k2 l = none) :
    lookupKey k2 (eraseKey k l) = none := by
  induction l with
  | nil => rfl
  | cons hd t ih =>
    obtain ⟨k3, v⟩ := hd
    simp only [lookupKey] at h
    by_cases hk2 : k2 = k3
    · rw [if_pos hk2] at h
      exact absurd h (by simp)
    · rw [if_neg hk2] at h
      by_cases hk : k = k3
      · simp only [eraseKey, if_pos hk]
        exact h
      · simp only [eraseKey, if_neg hk, lookupKey, if_neg hk2]
        exact ih h

/-- The inner loop never adds entries to the id index. -/
theorem fillLoopF_orders_none (f : Nat) : ∀ (bq aq : List Order)
    (d : List (Int × LevelData)) (os : List (Nat × OrderEntry)) (i : Nat),
    lookupKey i os = none → lookupKey i (fillLoopF f bq aq d os).orders = none := by
  induction f with
  | zero =>
    intro bq aq d os i h
    exact h
  | succ f ih =>
    intro bq aq d os i h
    cases bq with
    | nil => exact h
    | cons bid bqt =>
      cases aq with
      | nil => exact h
      | cons ask aqt =>
        dsimp only [fillLoopF]
        apply ih
        split
        · apply lookupKey_eraseKey_none
          split
          · exact lookupKey_eraseKey_none _ _ _ h
          · exact h
        · split
          · exact lookupKey_eraseKey_none _ _ _ h
          · exact h

/-- The inner loop leaves the id-index entry of any id that is in neither
queue untouched. -/
theorem fillLoopF_orders_fresh (f : Nat) : ∀ (bq aq : List Order)
    (d : List (Int × LevelData)) (os : List (Nat × OrderEntry)) (i : Nat),
    i ∉ bq.map Order.orderId → i ∉ aq.map Order.orderId →
    lookupKey i (fillLoopF f bq aq d os).orders = lookupKey i os := by
  induction f with
  | zero =>
    intro bq aq d os i hb ha
    rfl
  | succ f ih =>
    intro bq aq d os i hb ha
    cases bq with
    | nil => rfl
    | cons bid bqt =>
      cases aq with
      | nil => rfl
      | cons ask aqt =>
        simp only [List.map_cons, List.mem_cons, not_or] at hb ha
        dsimp only [fillLoopF]
        rw [ih]
        · split
          · rw [lookupKey_eraseKey_ne _ _ _ (by
              simpa [Order.Fill] using ha.1)]
            split
            · rw [lookupKey_eraseKey_ne _ _ _ (by
                simpa [Order.Fill] using hb.1)]
            · rfl
          · split
            · rw [lookupKey_eraseKey_ne _ _ _ (by
                simpa [Order.Fill] using hb.1)]
            · rfl
        · split
          · exact hb.2
          · simp only [List.map_cons, List.mem_cons, not_or, Order.Fill]
            exact ⟨hb.1, hb.2⟩
        · split
          · exact ha.2
          · simp only [List.map_cons, List.mem_cons, not_or, Order.Fill]
            exact ⟨ha.1, ha.2⟩

theorem fillQT_nil_left (f : Nat) (aq : List Order) : fillQT f [] aq = ⟨[], aq, []⟩ := by
  cases f <;> rfl

theorem fillQT_nil_right (f : Nat) (bq : List Order) : fillQT f bq [] = ⟨bq, [], []⟩ := by
  cases f with
  | zero => rfl
  | succ f => cases bq <;> rfl

/-- When both queues are non-empty and at least one iteration is allowed, the
inner loop strictly shrinks the total queue length. -/
theorem fillQT_progress (f : Nat) (bq aq : List Order) (hb : bq ≠ []) (ha : aq ≠ [])
    (hf : 1 ≤ f) :
    (fillQT f bq aq).bq.length + (fillQT f bq aq).aq.length < bq.length + aq.length := by
  obtain ⟨f, rfl⟩ : ∃ f2, f = f2 + 1 := ⟨f - 1, by omega⟩
  obtain ⟨bid, bqt, rfl⟩ : ∃ h t, bq = h :: t := by
    cases bq with
    | nil => exact absurd rfl hb
    | cons h t => exact ⟨h, t, rfl⟩
  obtain ⟨ask, aqt, rfl⟩ : ∃ h t, aq = h :: t := by
    cases aq with
    | nil => exact absurd rfl ha
    | cons h t => exact ⟨h, t, rfl⟩
  dsimp only [fillQT]
  generalize hq : min bid.remainingQuantity ask.remainingQuantity = q
  set bid2 := bid.Fill q with hbid2
  set ask2 := ask.Fill q with hask2
  have hor : bid2.IsFilled = true ∨ ask2.IsFilled = true := by
    simp only [Order.IsFilled, beq_iff_eq]
    have eb : bid2.remainingQuantity = bid.remainingQuantity - q := rfl
    have ea : ask2.remainingQuantity = ask.remainingQuantity - q := rfl
    have hqor : q = bid.remainingQuantity ∨ q = ask.remainingQuantity := by
      rcases Nat.le_total bid.remainingQuantity ask.remainingQuantity with hc | hc
      · rw [← hq, Nat.min_eq_left hc]
        exact Or.inl rfl
      · rw [← hq, Nat.min_eq_right hc]
        exact Or.inr rfl
    omega
  have hlen := (fillQT_main f (if bid2.IsFilled then bqt else bid2 :: bqt)
    (if ask2.IsFilled then aqt else ask2 :: aqt)).2.1
  rcases hor with h1 | h1
  · rw [if_pos h1] at hlen ⊢
    by_cases h2 : ask2.IsFilled = true
    · rw [if_pos h2] at hlen ⊢
      simp only [List.length_cons] at hlen ⊢
      omega
    · rw [if_neg h2] at hlen ⊢
      simp only [List.length_cons] at hlen ⊢
      omega
  · rw [if_pos h1] at hlen ⊢
    by_cases h2 : bid2.IsFilled = true
    · rw [if_pos h2] at hlen ⊢
      simp only [List.length_cons] at hlen ⊢
      omega
    · rw [if_neg h2] at hlen ⊢
      simp only [List.length_cons] at hlen ⊢
      omega

theorem sumTradeQty_append (a b : List Trade) :
    sumTradeQty (a ++ b) = sumTradeQty a + sumTradeQty b := by
  induction a with
  | nil => simp [sumTradeQty]
  | cons t ts ih =>
    show sumTradeQty (t :: (ts ++ b)) = _
    simp only [sumTradeQty, ih]
    omega

theorem eraseKey_cons_self {α β : Type} [DecidableEq α] (k : α) (v : β)
    (t : List (α × β)) : eraseKey k ((k, v) :: t) = t := by
  simp [eraseKey]

theorem setKeySorted_cons_self {α β : Type} [DecidableEq α] (lt : α → α → Bool)
    (k : α) (v v2 : β) (t : List (α × β)) (h : lt k k = false) :
    setKeySorted lt k v ((k, v2) :: t) = (k, v) :: t := by
  simp [setKeySorted, h]

theorem gtPrice_irrefl (a : Int) : gtPrice a a = false := by
  simp [gtPrice]

theorem ltPrice_irrefl (a : Int) : ltPrice a a = false := by
  simp [ltPrice]

/-- Once the exit condition holds, the outer loop is the identity for any
iteration bound. -/
theorem matchLoopF_done (f : Nat) (b : Book) (h : loopDoneB b = true) :
    matchLoopF f b = ⟨b, []⟩ := by
  cases f with
  | zero => rfl
  | succ f =>
    obtain ⟨bd, bb, ba, bo⟩ := b
    cases bb with
    | nil => rfl
    | cons bhd tb =>
      cases ba with
      | nil => rfl
      | cons ahd ta =>
        obtain ⟨bp, bidQ⟩ := bhd
        obtain ⟨ap, askQ⟩ := ahd
        simp only [loopDoneB, decide_eq_true_eq] at h
        dsimp only [matchLoopF]
        rw [if_pos h]

/-- Every order resides in the queue of its own price level. -/
def PriceCoherent (m : List (Int × List Order)) : Prop :=
  ∀ pq ∈ m, ∀ o ∈ pq.2, o.price = pq.1

/-- Every resident order has strictly positive remaining quantity. -/
def PosQueues (m : List (Int × List Order)) : Prop :=
  ∀ pq ∈ m, ∀ o ∈ pq.2, 0 < o.remainingQuantity

instance (m : List (Int × List Order)) : Decidable (PriceCoherent m) := by
  unfold PriceCoherent
  infer_instance

instance (m : List (Int × List Order)) : Decidable (PosQueues m) := by
  unfold PosQueues
  infer_instance

/-- Combined facts about the outer matching loop: quantity conservation, trade
well-formedness under price coherence, positivity, and that `bookMeasure b`
iterations reach the exit condition (termination of the C++ `while (true)`). -/
theorem matchLoopF_main (f : Nat) : ∀ (b : Book),
    (totalRem b = totalRem (matchLoopF f b).book +
      2 * sumTradeQty (matchLoopF f b).trades) ∧
    (PriceCoherent b.bids → PriceCoherent b.asks →
      (∀ t ∈ (matchLoopF f b).trades,
        t.askTrade.price ≤ t.bidTrade.price ∧
          t.bidTrade.quantity = t.askTrade.quantity) ∧
      PriceCoherent (matchLoopF f b).book.bids ∧
      PriceCoherent (matchLoopF f b).book.asks) ∧
    (PosQueues b.bids → PosQueues b.asks →
      (∀ t ∈ (matchLoopF f b).trades, 0 < t.bidTrade.quantity) ∧
      PosQueues (matchLoopF f b).book.bids ∧
      PosQueues (matchLoopF f b).book.asks) ∧
    (bookMeasure b ≤ f → loopDoneB (matchLoopF f b).book = true) := by
  induction f with
  | zero =>
    intro b
    refine ⟨by simp [matchLoopF, sumTradeQty],
      fun h1 h2 => ⟨fun t ht => by simp [matchLoopF] at ht, h1, h2⟩,
      fun h1 h2 => ⟨fun t ht => by simp [matchLoopF] at ht, h1, h2⟩, ?_⟩
    intro hm
    show loopDoneB b = true
    obtain ⟨bd, bb, ba, bo⟩ := b
    cases bb with
    | nil => rfl
    | cons bhd tb =>
      exfalso
      simp only [bookMeasure, List.length_cons] at hm
      omega
  | succ f ih =>
    intro b
    by_cases hdone : loopDoneB b = true
    · rw [matchLoopF_done (f + 1) b hdone]
      exact ⟨by simp [totalRem, sumTradeQty],
        fun h1 h2 => ⟨fun t ht => by simp at ht, h1, h2⟩,
        fun h1 h2 => ⟨fun t ht => by simp at ht, h1, h2⟩,
        fun _ => hdone⟩
    · obtain ⟨bd, bb, ba, bo⟩ := b
      cases bb with
      | nil => simp [loopDoneB] at hdone
      | cons bhd tb =>
        obtain ⟨bp, bidQ⟩ := bhd
        cases ba with
        | nil => simp [loopDoneB] at hdone
        | cons ahd ta =>
          obtain ⟨ap, askQ⟩ := ahd
          have hlt : ¬ bp < ap := by
            intro hc
            exact hdone (by simp [loopDoneB, hc])
          have hle : ap ≤ bp := Int.not_lt.mp hlt
          dsimp only [matchLoopF]
          rw [if_neg hlt]
          obtain ⟨sumE, lenE, memB, memA, shapeE, posE⟩ :=
            fillQT_main (bidQ.length + askQ.length) bidQ askQ
          set R := fillLoop bidQ askQ bd bo with hR
          have hRbq : R.bq = (fillQT (bidQ.length + askQ.length) bidQ askQ).bq :=
            (fillLoopF_eq_fillQT _ _ _ _ _).1
          have hRaq : R.aq = (fillQT (bidQ.length + askQ.length) bidQ askQ).aq :=
            (fillLoopF_eq_fillQT _ _ _ _ _).2.1
          have hRtr : R.trades = (fillQT (bidQ.length + askQ.length) bidQ askQ).trades :=
            (fillLoopF_eq_fillQT _ _ _ _ _).2.2
          set Q := fillQT (bidQ.length + askQ.length) bidQ askQ with hQ
          rw [hRbq, hRaq, hRtr, eraseKey_cons_self bp bidQ tb, eraseKey_cons_self ap askQ ta,
            setKeySorted_cons_self gtPrice bp Q.bq bidQ tb (gtPrice_irrefl bp),
            setKeySorted_cons_self ltPrice ap Q.aq askQ ta (ltPrice_irrefl ap)]
          by_cases hbe : Q.bq.isEmpty = true
          · have hbe2 : Q.bq = [] := by
              cases hqb : Q.bq with
              | nil => rfl
              | cons x xs => rw [hqb] at hbe; simp [List.isEmpty] at hbe
            by_cases hae : Q.aq.isEmpty = true
            · -- both top queues emptied: both levels removed
              have hae2 : Q.aq = [] := by
                cases hqa : Q.aq with
                | nil => rfl
                | cons x xs => rw [hqa] at hae; simp [List.isEmpty] at hae
              simp only [if_pos hbe, if_pos hae]
              obtain ⟨A2, B2, C2, D2⟩ := ih ⟨eraseKey ap (eraseKey bp R.data), tb, ta, R.orders⟩
              refine ⟨?_, ?_, ?_, ?_⟩
              · rw [hbe2, hae2] at sumE
                simp only [sumRem] at sumE
                simp only [totalRem, queuesSumRem, sumTradeQty_append] at A2 ⊢
                omega
              · intro hcb hca
                obtain ⟨sh2, cb2, ca2⟩ := B2
                  (fun pq hpq => hcb pq (List.mem_cons_of_mem _ hpq))
                  (fun pq hpq => hca pq (List.mem_cons_of_mem _ hpq))
                refine ⟨?_, cb2, ca2⟩
                intro t ht
                rcases List.mem_append.mp ht with h1 | h1
                · obtain ⟨he, ⟨o2, ho2, hid, hp⟩, ⟨o3, ho3, hid3, hp3⟩⟩ := shapeE t h1
                  have hpb : o2.price = bp := hcb (bp, bidQ) (List.mem_cons_self _ _) o2 ho2
                  have hpa : o3.price = ap := hca (ap, askQ) (List.mem_cons_self _ _) o3 ho3
                  refine ⟨?_, he⟩
                  rw [hp3, hp, hpb, hpa]
                  exact hle
                · exact sh2 t h1
              · intro hpb hpa
                obtain ⟨tp, pb2, pa2⟩ := C2
                  (fun pq hpq => hpb pq (List.mem_cons_of_mem _ hpq))
                  (fun pq hpq => hpa pq (List.mem_cons_of_mem _ hpq))
                obtain ⟨tpos, _, _⟩ := posE
                  (fun o ho => hpb (bp, bidQ) (List.mem_cons_self _ _) o ho)
                  (fun o ho => hpa (ap, askQ) (List.mem_cons_self _ _) o ho)
                refine ⟨?_, pb2, pa2⟩
                intro t ht
                rcases List.mem_append.mp ht with h1 | h1
                · exact tpos t h1
                · exact tp t h1
              · intro hm
                apply D2
                simp only [bookMeasure, queuesLen, List.length_cons] at hm ⊢
                omega
            · -- bid level emptied, ask queue survives
              simp only [if_pos hbe, if_neg hae]
              obtain ⟨A2, B2, C2, D2⟩ := ih ⟨eraseKey bp R.data, tb, (ap, Q.aq) :: ta, R.orders⟩
              refine ⟨?_, ?_, ?_, ?_⟩
              · rw [hbe2] at sumE
                simp only [sumRem] at sumE
                simp only [totalRem, queuesSumRem, sumTradeQty_append] at A2 ⊢
                omega
              · intro hcb hca
                obtain ⟨sh2, cb2, ca2⟩ := B2
                  (fun pq hpq => hcb pq (List.mem_cons_of_mem _ hpq))
                  (by
                    intro pq hpq o ho
                    rcases List.mem_cons.mp hpq with h1 | h1
                    · subst h1
                      obtain ⟨o2, ho2, hw⟩ := memA o ho
                      have hpa : o2.price = ap :=
                        hca (ap, askQ) (List.mem_cons_self _ _) o2 ho2
                      rw [hw.2.1, hpa]
                    · exact hca pq (List.mem_cons_of_mem _ h1) o ho)
                refine ⟨?_, cb2, ca2⟩
                intro t ht
                rcases List.mem_append.mp ht with h1 | h1
                · obtain ⟨he, ⟨o2, ho2, hid, hp⟩, ⟨o3, ho3, hid3, hp3⟩⟩ := shapeE t h1
                  have hpb : o2.price = bp := hcb (bp, bidQ) (List.mem_cons_self _ _) o2 ho2
                  have hpa : o3.price = ap := hca (ap, askQ) (List.mem_cons_self _ _) o3 ho3
                  refine ⟨?_, he⟩
                  rw [hp3, hp, hpb, hpa]
                  exact hle
                · exact sh2 t h1
              · intro hpb hpa
                obtain ⟨tpos, _, posAq⟩ := posE
                  (fun o ho => hpb (bp, bidQ) (List.mem_cons_self _ _) o ho)
                  (fun o ho => hpa (ap, askQ) (List.mem_cons_self _ _) o ho)
                obtain ⟨tp, pb2, pa2⟩ := C2
                  (fun pq hpq => hpb pq (List.mem_cons_of_mem _ hpq))
                  (by
                    intro pq hpq o ho
                    rcases List.mem_cons.mp hpq with h1 | h1
                    · subst h1
                      exact posAq o ho
                    · exact hpa pq (List.mem_cons_of_mem _ h1) o ho)
                refine ⟨?_, pb2, pa2⟩
                intro t ht
                rcases List.mem_append.mp ht with h1 | h1
                · exact tpos t h1
                · exact tp t h1
              · intro hm
                apply D2
                simp only [bookMeasure, queuesLen, List.length_cons] at hm ⊢
                omega
          · have hbe2 : Q.bq ≠ [] := by
              intro hc
              rw [hc] at hbe
              exact hbe rfl
            by_cases hae : Q.aq.isEmpty = true
            · -- ask level emptied, bid queue survives
              have hae2 : Q.aq = [] := by
                cases hqa : Q.aq with
                | nil => rfl
                | cons x xs => rw [hqa] at hae; simp [List.isEmpty] at hae
              simp only [if_neg hbe, if_pos hae]
              obtain ⟨A2, B2, C2, D2⟩ := ih ⟨eraseKey ap R.data, (bp, Q.bq) :: tb, ta, R.orders⟩
              refine ⟨?_, ?_, ?_, ?_⟩
              · rw [hae2] at sumE
                simp only [sumRem] at sumE
                simp only [totalRem, queuesSumRem, sumTradeQty_append] at A2 ⊢
                omega
              · intro hcb hca
                obtain ⟨sh2, cb2, ca2⟩ := B2
                  (by
                    intro pq hpq o ho
                    rcases List.mem_cons.mp hpq with h1 | h1
                    · subst h1
                      obtain ⟨o2, ho2, hw⟩ := memB o ho
                      have hpb : o2.price = bp :=
                        hcb (bp, bidQ) (List.mem_cons_self _ _) o2 ho2
                      rw [hw.2.1, hpb]
                    · exact hcb pq (List.mem_cons_of_mem _ h1) o ho)
                  (fun pq hpq => hca pq (List.mem_cons_of_mem _ hpq))
                refine ⟨?_, cb2, ca2⟩
                intro t ht
                rcases List.mem_append.mp ht with h1 | h1
                · obtain ⟨he, ⟨o2, ho2, hid, hp⟩, ⟨o3, ho3, hid3, hp3⟩⟩ := shapeE t h1
                  have hpb : o2.price = bp := hcb (bp, bidQ) (List.mem_cons_self _ _) o2 ho2
                  have hpa : o3.price = ap := hca (ap, askQ) (List.mem_cons_self _ _) o3 ho3
                  refine ⟨?_, he⟩
                  rw [hp3, hp, hpb, hpa]
                  exact hle
                · exact sh2 t h1
              · intro hpb hpa
                obtain ⟨tpos, posBq, _⟩ := posE
                  (fun o ho => hpb (bp, bidQ) (List.mem_cons_self _ _) o ho)
                  (fun o ho => hpa (ap, askQ) (List.mem_cons_self _ _) o ho)
                obtain ⟨tp, pb2, pa2⟩ := C2
                  (by
                    intro pq hpq o ho
                    rcases List.mem_cons.mp hpq with h1 | h1
                    · subst h1
                      exact posBq o ho
                    · exact hpb pq (List.mem_cons_of_mem _ h1) o ho)
                  (fun pq hpq => hpa pq (List.mem_cons_of_mem _ hpq))
                refine ⟨?_, pb2, pa2⟩
                intro t ht
                rcases List.mem_append.mp ht with h1 | h1
                · exact tpos t h1
                · exact tp t h1
              · intro hm
                apply D2
                simp only [bookMeasure, queuesLen, List.length_cons] at hm ⊢
                omega
            · -- both queues survive: both levels stay
              have hae2 : Q.aq ≠ [] := by
                intro hc
                rw [hc] at hae
                exact hae rfl
              have hbqne : bidQ ≠ [] := by
                intro hc
                apply hbe2
                rw [hQ, hc, fillQT_nil_left]
              have haqne : askQ ≠ [] := by
                intro hc
                apply hae2
                rw [hQ, hc, fillQT_nil_right]
              have hprog := fillQT_progress (bidQ.length + askQ.length) bidQ askQ hbqne haqne
                (by
                  have := List.length_pos.mpr hbqne
                  omega)
              rw [← hQ] at hprog
              simp only [if_neg hbe, if_neg hae]
              obtain ⟨A2, B2, C2, D2⟩ :=
                ih ⟨R.data, (bp, Q.bq) :: tb, (ap, Q.aq) :: ta, R.orders⟩
              refine ⟨?_, ?_, ?_, ?_⟩
              · simp only [totalRem, queuesSumRem, sumTradeQty_append] at A2 ⊢
                omega
              · intro hcb hca
                obtain ⟨sh2, cb2, ca2⟩ := B2
                  (by
                    intro pq hpq o ho
                    rcases List.mem_cons.mp hpq with h1 | h1
                    · subst h1
                      obtain ⟨o2, ho2, hw⟩ := memB o ho
                      have hpb : o2.price = bp :=
                        hcb (bp, bidQ) (List.mem_cons_self _ _) o2 ho2
                      rw [hw.2.1, hpb]
                    · exact hcb pq (List.mem_cons_of_mem _ h1) o ho)
                  (by
                    intro pq hpq o ho
                    rcases List.mem_cons.mp hpq with h1 | h1
                    · subst h1
                      obtain ⟨o2, ho2, hw⟩ := memA o ho
                      have hpa : o2.price = ap :=
                        hca (ap, askQ) (List.mem_cons_self _ _) o2 ho2
                      rw [hw.2.1, hpa]
                    · exact hca pq (List.mem_cons_of_mem _ h1) o ho)
                refine ⟨?_, cb2, ca2⟩
                intro t ht
                rcases List.mem_append.mp ht with h1 | h1
                · obtain ⟨he, ⟨o2, ho2, hid, hp⟩, ⟨o3, ho3, hid3, hp3⟩⟩ := shapeE t h1
                  have hpb : o2.price = bp := hcb (bp, bidQ) (List.mem_cons_self _ _) o2 ho2
                  have hpa : o3.price = ap := hca (ap, askQ) (List.mem_cons_self _ _) o3 ho3
                  refine ⟨?_, he⟩
                  rw [hp3, hp, hpb, hpa]
                  exact hle
                · exact sh2 t h1
              · intro hpb hpa
                obtain ⟨tpos, posBq, posAq⟩ := posE
                  (fun o ho => hpb (bp, bidQ) (List.mem_cons_self _ _) o ho)
                  (fun o ho => hpa (ap, askQ) (List.mem_cons_self _ _) o ho)
                obtain ⟨tp, pb2, pa2⟩ := C2
                  (by
                    intro pq hpq o ho
                    rcases List.mem_cons.mp hpq with h1 | h1
                    · subst h1
                      exact posBq o ho
                    · exact hpb pq (List.mem_cons_of_mem _ h1) o ho)
                  (by
                    intro pq hpq o ho
                    rcases List.mem_cons.mp hpq with h1 | h1
                    · subst h1
                      exact posAq o ho
                    · exact hpa pq (List.mem_cons_of_mem _ h1) o ho)
                refine ⟨?_, pb2, pa2⟩
                intro t ht
                rcases List.mem_append.mp ht with h1 | h1
                · exact tpos t h1
                · exact tp t h1
              · intro hm
                apply D2
                simp only [bookMeasure, queuesLen, List.length_cons] at hm ⊢
                omega

theorem lookupKey_mem {α β : Type} [DecidableEq α] (k : α) (l : List (α × β)) (v : β)
    (h : lookupKey k l = some v) : (k, v) ∈ l := by
  induction l with
  | nil => simp [lookupKey] at h
  | cons hd t ih =>
    obtain ⟨k2, v2⟩ := hd
    simp only [lookupKey] at h
    by_cases hk : k = k2
    · rw [if_pos hk] at h
      subst hk
      rw [Option.some.injEq] at h
      subst h
      exact List.mem_cons_self _ _
    · rw [if_neg hk] at h
      exact List.mem_cons_of_mem _ (ih h)

theorem mem_setKeySorted {α β : Type} [DecidableEq α] (lt : α → α → Bool) (k : α)
    (v : β) (l : List (α × β)) :
    ∀ pq ∈ setKeySorted lt k v l, pq = (k, v) ∨ pq ∈ l := by
  induction l with
  | nil =>
    intro pq hpq
    simp only [setKeySorted, List.mem_singleton] at hpq
    exact Or.inl hpq
  | cons hd t ih =>
    obtain ⟨k2, v2⟩ := hd
    intro pq hpq
    simp only [setKeySorted] at hpq
    by_cases hlt : lt k k2 = true
    · rw [if_pos hlt] at hpq
      rcases List.mem_cons.mp hpq with h1 | h1
      · exact Or.inl h1
      · exact Or.inr h1
    · rw [if_neg hlt] at hpq
      by_cases hk : k = k2
      · rw [if_pos hk] at hpq
        rcases List.mem_cons.mp hpq with h1 | h1
        · exact Or.inl h1
        · exact Or.inr (List.mem_cons_of_mem _ h1)
      · rw [if_neg hk] at hpq
        rcases List.mem_cons.mp hpq with h1 | h1
        · exact Or.inr (by rw [h1]; exact List.mem_cons_self _ _)
        · rcases ih pq h1 with h2 | h2
          · exact Or.inl h2
          · exact Or.inr (List.mem_cons_of_mem _ h2)

/-- Insertion preserves the price coherence of the queues: the new order goes
to the queue keyed by its own price. -/
theorem insertOrder_coherent (b : Book) (o : Order)
    (hcb : PriceCoherent b.bids) (hca : PriceCoherent b.asks) :
    PriceCoherent (insertOrder b o).bids ∧ PriceCoherent (insertOrder b o).asks := by
  cases hs : o.side with
  | Buy =>
    simp only [insertOrder, hs]
    refine ⟨?_, hca⟩
    intro pq hpq o2 ho2
    rcases mem_setKeySorted _ _ _ _ pq hpq with h1 | h1
    · subst h1
      rcases List.mem_append.mp ho2 with h2 | h2
      · cases hql : lookupKey o.price b.bids with
        | none => rw [hql] at h2; simp at h2
        | some qv =>
          rw [hql] at h2
          exact hcb (o.price, qv) (lookupKey_mem _ _ _ hql) o2 h2
      · simp only [List.mem_singleton] at h2
        subst h2
        rfl
    · exact hcb pq h1 o2 ho2
  | Sell =>
    simp only [insertOrder, hs]
    refine ⟨hcb, ?_⟩
    intro pq hpq o2 ho2
    rcases mem_setKeySorted _ _ _ _ pq hpq with h1 | h1
    · subst h1
      rcases List.mem_append.mp ho2 with h2 | h2
      · cases hql : lookupKey o.price b.asks with
        | none => rw [hql] at h2; simp at h2
        | some qv =>
          rw [hql] at h2
          exact hca (o.price, qv) (lookupKey_mem _ _ _ hql) o2 h2
      · simp only [List.mem_singleton] at h2
        subst h2
        rfl
    · exact hca pq h1 o2 ho2

theorem matchOrders_trades_wf (b : Book)
    (hcb : PriceCoherent b.bids) (hca : PriceCoherent b.asks) :
    ∀ t ∈ (MatchOrders b).2,
      t.askTrade.price ≤ t.bidTrade.price ∧
        t.bidTrade.quantity = t.askTrade.quantity := by
  intro t ht
  exact ((matchLoopF_main (bookMeasure b) b).2.1 hcb hca).1 t ht

/-- The seed book of spec scenario 3: GTC Sell id 10 at 101 for 5, GTC Sell
id 11 at 102 for 5. -/
def wBookS : Book :=
  (AddOrder (AddOrder emptyBook ⟨OrderType.GoodTillCancel, 10, Side.Sell, 101, 5, 5⟩).1
    ⟨OrderType.GoodTillCancel, 11, Side.Sell, 102, 5, 5⟩).1

/-- C10: the matching loop of `MatchOrders` terminates and strictly consumes
quantity.  Run with its `bookMeasure` iteration bound (as `MatchOrders` does),
the loop reaches its exit condition — a side exhausted or best bid below best
ask; when every resident order has positive remaining quantity every emitted
trade has positive quantity, and the book's total remaining quantity drops by
exactly twice the traded volume, so each trade strictly decreases it. -/
theorem matchLoop_terminates_and_decreases (b : Book)
    (hpb : PosQueues b.bids) (hpa : PosQueues b.asks) :
    loopDoneB (matchLoopF (bookMeasure b) b).book = true ∧
    totalRem b = totalRem (matchLoopF (bookMeasure b) b).book +
      2 * sumTradeQty (matchLoopF (bookMeasure b) b).trades ∧
    (∀ t ∈ (matchLoopF (bookMeasure b) b).trades, 0 < t.bidTrade.quantity) := by
  obtain ⟨A, B, C, D⟩ := matchLoopF_main (bookMeasure b) b
  exact ⟨D (Nat.le_refl _), A, (C hpb hpa).1⟩

theorem matchLoop_terminates_and_decreases_witness :
    loopDoneB (matchLoopF (bookMeasure wBookS) wBookS).book = true ∧
    totalRem wBookS = totalRem (matchLoopF (bookMeasure wBookS) wBookS).book +
      2 * sumTradeQty (matchLoopF (bookMeasure wBookS) wBookS).trades ∧
    (∀ t ∈ (matchLoopF (bookMeasure wBookS) wBookS).trades, 0 < t.bidTrade.quantity) :=
  matchLoop_terminates_and_decreases wBookS (by decide) (by decide)

theorem fillLoopF_nil_left (f : Nat) (aq : List Order) (d : List (Int × LevelData))
    (os : List (Nat × OrderEntry)) : fillLoopF f [] aq d os = ⟨[], aq, d, os, []⟩ := by
  cases f <;> rfl

theorem Order.Fill_Fill (o : Order) (a b : Nat) :
    (o.Fill a).Fill b = o.Fill (a + b) := by
  simp [Order.Fill, Nat.sub_sub]

theorem Order.Fill_zero (o : Order) : o.Fill 0 = o := rfl

/-- Characterization of the inner loop when the bid side holds exactly the one
freshly inserted order `o` with positive remaining quantity and an id foreign
to the ask queue and unique in the id index: either `o` fills completely — it
leaves the queue and the id index and the trades sum to its remaining — or the
ask queue is consumed completely and `o` survives at the head with its index
entry untouched. -/
theorem fillLoopF_singleton (f : Nat) : ∀ (o : Order) (aq : List Order)
    (d : List (Int × LevelData)) (os : List (Nat × OrderEntry)),
    aq.length + 1 ≤ f → 0 < o.remainingQuantity →
    o.orderId ∉ aq.map Order.orderId → (os.map Prod.fst).Nodup →
    ((fillLoopF f [o] aq d os).bq = [] ∧
      sumTradeQty (fillLoopF f [o] aq d os).trades = o.remainingQuantity ∧
      lookupKey o.orderId (fillLoopF f [o] aq d os).orders = none) ∨
    ((fillLoopF f [o] aq d os).bq =
        [o.Fill (sumTradeQty (fillLoopF f [o] aq d os).trades)] ∧
      (fillLoopF f [o] aq d os).aq = [] ∧
      sumTradeQty (fillLoopF f [o] aq d os).trades = sumRem aq ∧
      sumTradeQty (fillLoopF f [o] aq d os).trades < o.remainingQuantity ∧
      lookupKey o.orderId (fillLoopF f [o] aq d os).orders = lookupKey o.orderId os) := by
  induction f with
  | zero =>
    intro o aq d os hf hpos hfr hnd
    exact absurd hf (by omega)
  | succ f ih =>
    intro o aq d os hf hpos hfr hnd
    cases aq with
    | nil =>
      right
      refine ⟨?_, rfl, rfl, ?_, rfl⟩
      · show [o] = [o.Fill (sumTradeQty [])]
        simp [sumTradeQty, Order.Fill_zero]
      · show sumTradeQty [] < o.remainingQuantity
        simpa [sumTradeQty] using hpos
    | cons ask aqt =>
      simp only [List.length_cons] at hf
      simp only [List.map_cons, List.mem_cons, not_or] at hfr
      dsimp only [fillLoopF]
      generalize hq : min o.remainingQuantity ask.remainingQuantity = q
      have hqb : q ≤ o.remainingQuantity := hq ▸ Nat.min_le_left _ _
      have hqa : q ≤ ask.remainingQuantity := hq ▸ Nat.min_le_right _ _
      have hqor : q = o.remainingQuantity ∨ q = ask.remainingQuantity := by
        rcases Nat.le_total o.remainingQuantity ask.remainingQuantity with hc | hc
        · rw [← hq, Nat.min_eq_left hc]
          exact Or.inl rfl
        · rw [← hq, Nat.min_eq_right hc]
          exact Or.inr rfl
      set bid2 := o.Fill q with hbid2
      set ask2 := ask.Fill q with hask2
      have eb : bid2.remainingQuantity = o.remainingQuantity - q := rfl
      have ea : ask2.remainingQuantity = ask.remainingQuantity - q := rfl
      by_cases hbf : bid2.IsFilled = true
      · -- o fills completely in this step
        left
        have hbf2 : bid2.remainingQuantity = 0 := by
          simpa [Order.IsFilled] using hbf
        simp only [if_pos hbf]
        rw [fillLoopF_nil_left]
        refine ⟨rfl, ?_, ?_⟩
        · show q + sumTradeQty [] = o.remainingQuantity
          simp only [sumTradeQty]
          omega
        · show lookupKey o.orderId
            (if ask2.IsFilled = true then eraseKey ask.orderId (eraseKey o.orderId os)
             else eraseKey o.orderId os) = none
          split
          · exact lookupKey_eraseKey_none _ _ _ (lookupKey_eraseKey_self _ _ hnd)
          · exact lookupKey_eraseKey_self _ _ hnd
      · -- the ask head fills; recurse on the tail
        have hbf2 : ¬ bid2.remainingQuantity = 0 := by
          simpa [Order.IsFilled] using hbf
        have haf : ask2.IsFilled = true := by
          simp only [Order.IsFilled, beq_iff_eq]
          omega
        have haf2 : ask2.remainingQuantity = 0 := by
          simpa [Order.IsFilled] using haf
        simp only [if_neg hbf, if_pos haf]
        rcases ih bid2 aqt
            (UpdateLevelData (UpdateLevelData d bid2.price q LevelAction.Match)
              ask2.price q LevelAction.Remove)
            (eraseKey ask.orderId os)
            (by omega)
            (by omega)
            (hfr.2)
            (nodup_eraseKey _ _ hnd) with hA | hB
        · left
          refine ⟨hA.1, ?_, hA.2.2⟩
          show q + sumTradeQty _ = o.remainingQuantity
          have h2 := hA.2.1
          omega
        · right
          obtain ⟨hB1, hB2, hB3, hB4, hB5⟩ := hB
          refine ⟨?_, hB2, ?_, ?_, ?_⟩
          · show _ = [o.Fill (q + sumTradeQty _)]
            rw [hB1, hbid2, Order.Fill_Fill]
          · show q + sumTradeQty _ = sumRem (ask :: aqt)
            simp only [sumRem]
            omega
          · show q + sumTradeQty _ < o.remainingQuantity
            omega
          · show lookupKey o.orderId _ = lookupKey o.orderId os
            exact hB5.trans (lookupKey_eraseKey_ne _ _ _ hfr.1)

theorem fillLoopF_nil_right (f : Nat) (bq : List Order) (d : List (Int × LevelData))
    (os : List (Nat × OrderEntry)) : fillLoopF f bq [] d os = ⟨bq, [], d, os, []⟩ := by
  cases f with
  | zero => rfl
  | succ f => cases bq <;> rfl

/-- Mirror of `fillLoopF_singleton` for a freshly inserted sell order: the ask
side holds exactly `o` and the bid queue is consumed from the front. -/
theorem fillLoopF_singleton_ask (f : Nat) : ∀ (o : Order) (bq : List Order)
    (d : List (Int × LevelData)) (os : List (Nat × OrderEntry)),
    bq.length + 1 ≤ f → 0 < o.remainingQuantity →
    o.orderId ∉ bq.map Order.orderId → (os.map Prod.fst).Nodup →
    ((fillLoopF f bq [o] d os).aq = [] ∧
      sumTradeQty (fillLoopF f bq [o] d os).trades = o.remainingQuantity ∧
      lookupKey o.orderId (fillLoopF f bq [o] d os).orders = none) ∨
    ((fillLoopF f bq [o] d os).aq =
        [o.Fill (sumTradeQty (fillLoopF f bq [o] d os).trades)] ∧
      (fillLoopF f bq [o] d os).bq = [] ∧
      sumTradeQty (fillLoopF f bq [o] d os).trades = sumRem bq ∧
      sumTradeQty (fillLoopF f bq [o] d os).trades < o.remainingQuantity ∧
      lookupKey o.orderId (fillLoopF f bq [o] d os).orders = lookupKey o.orderId os) := by
  induction f with
  | zero =>
    intro o bq d os hf hpos hfr hnd
    exact absurd hf (by omega)
  | succ f ih =>
    intro o bq d os hf hpos hfr hnd
    cases bq with
    | nil =>
      right
      refine ⟨?_, rfl, rfl, ?_, rfl⟩
      · show [o] = [o.Fill (sumTradeQty [])]
        simp [sumTradeQty, Order.Fill_zero]
      · show sumTradeQty [] < o.remainingQuantity
        simpa [sumTradeQty] using hpos
    | cons bid bqt =>
      simp only [List.length_cons] at hf
      simp only [List.map_cons, List.mem_cons, not_or] at hfr
      dsimp only [fillLoopF]
      generalize hq : min bid.remainingQuantity o.remainingQuantity = q
      have hqb : q ≤ bid.remainingQuantity := hq ▸ Nat.min_le_left _ _
      have hqa : q ≤ o.remainingQuantity := hq ▸ Nat.min_le_right _ _
      have hqor : q = bid.remainingQuantity ∨ q = o.remainingQuantity := by
        rcases Nat.le_total bid.remainingQuantity o.remainingQuantity with hc | hc
        · rw [← hq, Nat.min_eq_left hc]
          exact Or.inl rfl
        · rw [← hq, Nat.min_eq_right hc]
          exact Or.inr rfl
      set bid2 := bid.Fill q with hbid2
      set ask2 := o.Fill q with hask2
      have eb : bid2.remainingQuantity = bid.remainingQuantity - q := rfl
      have ea : ask2.remainingQuantity = o.remainingQuantity - q := rfl
      by_cases haf : ask2.IsFilled = true
      · -- o fills completely in this step
        left
        have haf2 : ask2.remainingQuantity = 0 := by
          simpa [Order.IsFilled] using haf
        simp only [if_pos haf]
        rw [fillLoopF_nil_right]
        refine ⟨rfl, ?_, ?_⟩
        · show q + sumTradeQty [] = o.remainingQuantity
          simp only [sumTradeQty]
          omega
        · show lookupKey o.orderId
            (eraseKey o.orderId
              (if bid2.IsFilled = true then eraseKey bid.orderId os else os)) = none
          split
          · exact lookupKey_eraseKey_self _ _ (nodup_eraseKey _ _ hnd)
          · exact lookupKey_eraseKey_self _ _ hnd
      · -- the bid head fills; recurse on the tail
        have haf2 : ¬ ask2.remainingQuantity = 0 := by
          simpa [Order.IsFilled] using haf
        have hbf : bid2.IsFilled = true := by
          simp only [Order.IsFilled, beq_iff_eq]
          omega
        have hbf2 : bid2.remainingQuantity = 0 := by
          simpa [Order.IsFilled] using hbf
        simp only [if_pos hbf, if_neg haf]
        rcases ih ask2 bqt
            (UpdateLevelData (UpdateLevelData d bid2.price q LevelAction.Remove)
              ask2.price q LevelAction.Match)
            (eraseKey bid.orderId os)
            (by omega)
            (by omega)
            (hfr.2)
            (nodup_eraseKey _ _ hnd) with hA | hB
        · left
          refine ⟨hA.1, ?_, hA.2.2⟩
          show q + sumTradeQty _ = o.remainingQuantity
          have h2 := hA.2.1
          omega
        · right
          obtain ⟨hB1, hB2, hB3, hB4, hB5⟩ := hB
          refine ⟨?_, hB2, ?_, ?_, ?_⟩
          · show _ = [o.Fill (q + sumTradeQty _)]
            rw [hB1, hask2, Order.Fill_Fill]
          · show q + sumTradeQty _ = sumRem (bid :: bqt)
            simp only [sumRem]
            omega
          · show q + sumTradeQty _ < o.remainingQuantity
            omega
          · show lookupKey o.orderId _ = lookupKey o.orderId os
            exact hB5.trans (lookupKey_eraseKey_ne _ _ _ hfr.1)

theorem eraseKey_mem {α β : Type} [DecidableEq α] (k : α) (l : List (α × β)) :
    ∀ pq ∈ eraseKey k l, pq ∈ l := by
  induction l with
  | nil => intro pq hpq; exact hpq
  | cons hd t ih =>
    obtain ⟨k2, v⟩ := hd
    intro pq hpq
    simp only [eraseKey] at hpq
    by_cases hk : k = k2
    · rw [if_pos hk] at hpq
      exact List.mem_cons_of_mem _ hpq
    · rw [if_neg hk] at hpq
      rcases List.mem_cons.mp hpq with h1 | h1
      · exact h1 ▸ List.mem_cons_self _ _
      · exact List.mem_cons_of_mem _ (ih pq h1)

theorem eraseFirstById_mem (i : Nat) (q : List Order) :
    ∀ o ∈ eraseFirstById i q, o ∈ q := by
  induction q with
  | nil => intro o ho; exact ho
  | cons hd t ih =>
    intro o ho
    simp only [eraseFirstById] at ho
    by_cases hk : hd.orderId = i
    · rw [if_pos hk] at ho
      exact List.mem_cons_of_mem _ ho
    · rw [if_neg hk] at ho
      rcases List.mem_cons.mp ho with h1 | h1
      · exact h1 ▸ List.mem_cons_self _ _
      · exact List.mem_cons_of_mem _ (ih o h1)

theorem mem_queueIds (m : List (Int × List Order)) (i : Nat) :
    i ∈ queueIds m ↔ ∃ pq ∈ m, ∃ o ∈ pq.2, o.orderId = i := by
  induction m with
  | nil => simp [queueIds]
  | cons hd t ih =>
    obtain ⟨p2, q2⟩ := hd
    simp only [queueIds, List.mem_append, ih, List.mem_cons]
    constructor
    · rintro (h1 | ⟨pq, hpq, o, ho, rfl⟩)
      · simp only [List.mem_map] at h1
        obtain ⟨o, ho, rfl⟩ := h1
        exact ⟨(p2, q2), Or.inl rfl, o, ho, rfl⟩
      · exact ⟨pq, Or.inr hpq, o, ho, rfl⟩
    · rintro ⟨pq, hpq | hpq, o, ho, rfl⟩
      · subst hpq
        exact Or.inl (List.mem_map.mpr ⟨o, ho, rfl⟩)
      · exact Or.inr ⟨pq, hpq, o, ho, rfl⟩

theorem lookupKey_isSome_of_eraseKey {α β : Type} [DecidableEq α] (k k2 : α)
    (l : List (α × β)) (h : (lookupKey k2 (eraseKey k l)).isSome = true) :
    (lookupKey k2 l).isSome = true := by
  cases hl : lookupKey k2 l with
  | none => rw [lookupKey_eraseKey_none k k2 l hl] at h; exact absurd h (by simp)
  | some v => simp

/-- Cancelling any id never makes a non-resident id resident. -/
theorem not_resident_cancel (b : Book) (i j : Nat) (h : ¬ Resident b i) :
    ¬ Resident (CancelOrderInternal b j) i := by
  intro h2
  apply h
  unfold CancelOrderInternal at h2
  cases hl : lookupKey j b.orders with
  | none => rw [hl] at h2; exact h2
  | some e =>
    rw [hl] at h2
    obtain ⟨s, p⟩ := e
    have hqueue : ∀ (m : List (Int × List Order)),
        i ∈ queueIds (if (eraseFirstById j ((lookupKey p m).getD [])).isEmpty = true
          then eraseKey p m
          else setKeySorted ltPrice p (eraseFirstById j ((lookupKey p m).getD [])) m) ∨
        i ∈ queueIds (if (eraseFirstById j ((lookupKey p m).getD [])).isEmpty = true
          then eraseKey p m
          else setKeySorted gtPrice p (eraseFirstById j ((lookupKey p m).getD [])) m) →
        i ∈ queueIds m := by
      intro m hm
      have core : ∀ (lt : Int → Int → Bool),
          i ∈ queueIds (if (eraseFirstById j ((lookupKey p m).getD [])).isEmpty = true
            then eraseKey p m
            else setKeySorted lt p (eraseFirstById j ((lookupKey p m).getD [])) m) →
          i ∈ queueIds m := by
        intro lt hmem
        split at hmem
        · obtain ⟨pq, hpq, o, ho, rfl⟩ := (mem_queueIds _ _).mp hmem
          exact (mem_queueIds _ _).mpr ⟨pq, eraseKey_mem _ _ pq hpq, o, ho, rfl⟩
        · obtain ⟨pq, hpq, o, ho, rfl⟩ := (mem_queueIds _ _).mp hmem
          rcases mem_setKeySorted _ _ _ _ pq hpq with h1 | h1
          · subst h1
            have ho2 := eraseFirstById_mem _ _ o ho
            cases hql : lookupKey p m with
            | none => rw [hql] at ho2; simp at ho2
            | some qq =>
              rw [hql] at ho2
              exact (mem_queueIds _ _).mpr ⟨(p, qq), lookupKey_mem _ _ _ hql, o, ho2, rfl⟩
          · exact (mem_queueIds _ _).mpr ⟨pq, h1, o, ho, rfl⟩
      rcases hm with hm | hm
      · exact core ltPrice hm
      · exact core gtPrice hm
    cases s
    · -- Buy: bids rewritten, asks untouched
      rcases h2 with h2 | h2 | h2
      · exact Or.inl (lookupKey_isSome_of_eraseKey _ _ _ h2)
      · exact Or.inr (Or.inl (hqueue b.bids (Or.inr h2)))
      · exact Or.inr (Or.inr h2)
    · -- Sell: asks rewritten, bids untouched
      rcases h2 with h2 | h2 | h2
      · exact Or.inl (lookupKey_isSome_of_eraseKey _ _ _ h2)
      · exact Or.inr (Or.inl h2)
      · exact Or.inr (Or.inr (hqueue b.asks (Or.inl h2)))

theorem not_mem_keys_of_lookupKey_none {α β : Type} [DecidableEq α] (k : α)
    (l : List (α × β)) (h : lookupKey k l = none) : k ∉ l.map Prod.fst := by
  induction l with
  | nil => simp
  | cons hd t ih =>
    obtain ⟨k2, v⟩ := hd
    simp only [lookupKey] at h
    by_cases hk : k = k2
    · rw [if_pos hk] at h
      exact absurd h (by simp)
    · rw [if_neg hk] at h
      simp only [List.map_cons, List.mem_cons, not_or]
      exact ⟨hk, ih h⟩

theorem nodup_setKeySorted_fresh {α β : Type} [DecidableEq α] (lt : α → α → Bool)
    (k : α) (v : β) (l : List (α × β)) (hfresh : lookupKey k l = none)
    (hnd : (l.map Prod.fst).Nodup) :
    ((setKeySorted lt k v l).map Prod.fst).Nodup := by
  induction l with
  | nil => simp [setKeySorted]
  | cons hd t ih =>
    obtain ⟨k2, v2⟩ := hd
    simp only [lookupKey] at hfresh
    have hk : ¬ k = k2 := by
      intro hc
      rw [if_pos hc] at hfresh
      exact absurd hfresh (by simp)
    rw [if_neg hk] at hfresh
    simp only [List.map_cons, List.nodup_cons] at hnd
    simp only [setKeySorted]
    by_cases hlt : lt k k2 = true
    · rw [if_pos hlt]
      simp only [List.map_cons, List.nodup_cons, List.mem_cons, not_or]
      exact ⟨⟨hk, not_mem_keys_of_lookupKey_none k t hfresh⟩, hnd.1, hnd.2⟩
    · rw [if_neg hlt, if_neg hk]
      simp only [List.map_cons, List.nodup_cons]
      refine ⟨?_, ih hfresh hnd.2⟩
      intro hc
      simp only [List.mem_map] at hc
      obtain ⟨pq, hpq, hfst⟩ := hc
      rcases mem_setKeySorted _ _ _ _ pq hpq with h1 | h1
      · subst h1
        exact hk hfst
      · exact hnd.1 (List.mem_map.mpr ⟨pq, h1, hfst⟩)

theorem fillLoopF_orders_nodup (f : Nat) : ∀ (bq aq : List Order)
    (d : List (Int × LevelData)) (os : List (Nat × OrderEntry)),
    (os.map Prod.fst).Nodup → (((fillLoopF f bq aq d os).orders).map Prod.fst).Nodup := by
  induction f with
  | zero => intro bq aq d os h; exact h
  | succ f ih =>
    intro bq aq d os h
    cases bq with
    | nil => exact h
    | cons bid bqt =>
      cases aq with
      | nil => exact h
      | cons ask aqt =>
        dsimp only [fillLoopF]
        apply ih
        split
        · apply nodup_eraseKey
          split
          · exact nodup_eraseKey _ _ h
          · exact h
        · split
          · exact nodup_eraseKey _ _ h
          · exact h

theorem matchLoopF_orders_nodup (f : Nat) : ∀ (b : Book),
    (b.orders.map Prod.fst).Nodup →
    ((matchLoopF f b).book.orders.map Prod.fst).Nodup := by
  induction f with
  | zero => intro b h; exact h
  | succ f ih =>
    intro b h
    obtain ⟨bd, bb, ba, bo⟩ := b
    cases bb with
    | nil => exact h
    | cons bhd tb =>
      cases ba with
      | nil => exact h
      | cons ahd ta =>
        obtain ⟨bp, bidQ⟩ := bhd
        obtain ⟨ap, askQ⟩ := ahd
        by_cases hlt : bp < ap
        · dsimp only [matchLoopF]
          rw [if_pos hlt]
          exact h
        · dsimp only [matchLoopF]
          rw [if_neg hlt]
          apply ih
          exact fillLoopF_orders_nodup _ _ _ _ _ h

theorem chain'_head_lt (x : Int) (l : List Int) (h : List.Chain' (· < ·) (x :: l)) :
    ∀ y ∈ l, x < y := by
  induction l generalizing x with
  | nil => intro y hy; cases hy
  | cons z t ih =>
    intro y hy
    have h1 : x < z := (List.chain'_cons.mp h).1
    rcases List.mem_cons.mp hy with h2 | h2
    · exact h2 ▸ h1
    · exact lt_trans h1 (ih z (List.chain'_cons.mp h).2 y h2)

theorem chain'_head_gt (x : Int) (l : List Int) (h : List.Chain' (· > ·) (x :: l)) :
    ∀ y ∈ l, y < x := by
  induction l generalizing x with
  | nil => intro y hy; cases hy
  | cons z t ih =>
    intro y hy
    have h1 : z < x := (List.chain'_cons.mp h).1
    rcases List.mem_cons.mp hy with h2 | h2
    · exact h2 ▸ h1
    · exact lt_trans (ih z (List.chain'_cons.mp h).2 y h2) h1

/-- Sum of the remaining quantity at ask levels priced at or below `p`
(the crossable window for a buy at `p`). -/
def asksLESum (p : Int) : List (Int × List Order) → Nat
  | [] => 0
  | (k, l) :: t => (if k ≤ p then sumRem l else 0) + asksLESum p t

/-- Sum of the remaining quantity at bid levels priced at or above `p`
(the crossable window for a sell at `p`). -/
def bidsGESum (p : Int) : List (Int × List Order) → Nat
  | [] => 0
  | (k, l) :: t => (if p ≤ k then sumRem l else 0) + bidsGESum p t

theorem asksLESum_zero (p : Int) : ∀ (m : List (Int × List Order)),
    (∀ pq ∈ m, p < pq.1) → asksLESum p m = 0 := by
  intro m
  induction m with
  | nil => intro h; rfl
  | cons hd t ih =>
    obtain ⟨k, l⟩ := hd
    intro h
    have hk : p < k := h (k, l) (List.mem_cons_self _ _)
    simp only [asksLESum, if_neg (not_le.mpr hk)]
    rw [Nat.zero_add]
    exact ih (fun pq hpq => h pq (List.mem_cons_of_mem _ hpq))

theorem bidsGESum_zero (p : Int) : ∀ (m : List (Int × List Order)),
    (∀ pq ∈ m, pq.1 < p) → bidsGESum p m = 0 := by
  intro m
  induction m with
  | nil => intro h; rfl
  | cons hd t ih =>
    obtain ⟨k, l⟩ := hd
    intro h
    have hk : k < p := h (k, l) (List.mem_cons_self _ _)
    simp only [bidsGESum, if_neg (not_le.mpr hk)]
    rw [Nat.zero_add]
    exact ih (fun pq hpq => h pq (List.mem_cons_of_mem _ hpq))

/-- Master lemma for a freshly admitted buy order: when the bid side's top
level holds exactly the new order `o` at price `p`, the remaining bid levels
sit strictly below every ask level, and the asks are sorted ascending, the
matching loop either consumes `o` completely — `o` leaves the book and the
trades sum to its remaining quantity — or consumes the entire crossable ask
window at or below `p` and leaves `o` alone at the top with the leftover. -/
theorem matchLoop_top_buy (f : Nat) : ∀ (b : Book) (p : Int) (o : Order)
    (rest : List (Int × List Order)),
    b.bids = (p, [o]) :: rest →
    0 < o.remainingQuantity →
    (∀ pq ∈ rest, ∀ aq2 ∈ b.asks, pq.1 < aq2.1) →
    List.Chain' (· < ·) (b.asks.map Prod.fst) →
    o.orderId ∉ queueIds b.asks →
    (b.orders.map Prod.fst).Nodup →
    b.asks.length + 1 ≤ f →
    ((matchLoopF f b).book.bids = rest ∧
      lookupKey o.orderId (matchLoopF f b).book.orders = none ∧
      o.orderId ∉ queueIds (matchLoopF f b).book.asks ∧
      sumTradeQty (matchLoopF f b).trades = o.remainingQuantity) ∨
    ((matchLoopF f b).book.bids =
        (p, [o.Fill (sumTradeQty (matchLoopF f b).trades)]) :: rest ∧
      sumTradeQty (matchLoopF f b).trades < o.remainingQuantity ∧
      sumTradeQty (matchLoopF f b).trades = asksLESum p b.asks ∧
      lookupKey o.orderId (matchLoopF f b).book.orders =
        lookupKey o.orderId b.orders ∧
      o.orderId ∉ queueIds (matchLoopF f b).book.asks) := by
  induction f with
  | zero =>
    intro b p o rest hb hpos hrest hs hfr hnd hf
    exact absurd hf (by omega)
  | succ f ih =>
    intro b p o rest hb hpos hrest hs hfr hnd hf
    obtain ⟨bd, bb, ba, bo⟩ := b
    simp only at hb hrest hs hfr hnd hf
    subst hb
    cases ba with
    | nil =>
      right
      rw [matchLoopF_done (f + 1) ⟨bd, (p, [o]) :: rest, [], bo⟩ (by rfl)]
      refine ⟨?_, ?_, rfl, rfl, ?_⟩
      · show (p, [o]) :: rest = (p, [o.Fill (sumTradeQty [])]) :: rest
        simp [sumTradeQty, Order.Fill_zero]
      · show sumTradeQty [] < o.remainingQuantity
        simpa [sumTradeQty] using hpos
      · simpa using hfr
    | cons ahd ta =>
      obtain ⟨ap, askQ⟩ := ahd
      by_cases hpa : p < ap
      · right
        rw [matchLoopF_done (f + 1) ⟨bd, (p, [o]) :: rest, (ap, askQ) :: ta, bo⟩
          (by simp [loopDoneB, hpa])]
        refine ⟨?_, ?_, ?_, rfl, ?_⟩
        · show (p, [o]) :: rest = (p, [o.Fill (sumTradeQty [])]) :: rest
          simp [sumTradeQty, Order.Fill_zero]
        · show sumTradeQty [] < o.remainingQuantity
          simpa [sumTradeQty] using hpos
        · show sumTradeQty [] = asksLESum p ((ap, askQ) :: ta)
          rw [asksLESum_zero]
          · rfl
          · intro pq hpq
            rcases List.mem_cons.mp hpq with h1 | h1
            · exact h1 ▸ hpa
            · have := chain'_head_lt ap (ta.map Prod.fst)
                (by simpa using hs) pq.1 (List.mem_map.mpr ⟨pq, h1, rfl⟩)
              omega
        · simpa using hfr
      · dsimp only [matchLoopF]
        rw [if_neg hpa]
        simp only [fillLoop, List.length_singleton]
        simp only [List.length_cons] at hf
        simp only [queueIds, List.mem_append, not_or] at hfr
        set F1 := fillLoopF (1 + askQ.length) [o] askQ bd bo with hF1
        have hids : ∀ o2 ∈ F1.aq, o2.orderId ∈ askQ.map Order.orderId := by
          intro o2 ho2
          have hbr : F1.aq = (fillQT (1 + askQ.length) [o] askQ).aq :=
            (fillLoopF_eq_fillQT _ _ _ _ _).2.1
          rw [hbr] at ho2
          obtain ⟨o3, ho3, hw⟩ :=
            (fillQT_main (1 + askQ.length) [o] askQ).2.2.2.1 o2 ho2
          exact List.mem_map.mpr ⟨o3, ho3, hw.1.symm⟩
        have hnext : ∀ (d2 : List (Int × LevelData)) (ba2 : List (Int × List Order))
            (os2 : List (Nat × OrderEntry)),
            (∀ pq2 ∈ ba2, ∃ pq3 ∈ (ap, askQ) :: ta, pq2.1 = pq3.1) →
            loopDoneB ⟨d2, rest, ba2, os2⟩ = true := by
          intro d2 ba2 os2 hkeys
          rcases hre : rest with _ | ⟨⟨rp, rq⟩, rt⟩
          · rfl
          · cases ba2 with
            | nil => rfl
            | cons ah2 ta2 =>
              obtain ⟨a2p, a2q⟩ := ah2
              simp only [loopDoneB]
              apply decide_eq_true
              obtain ⟨pq3, hpq3, hkey⟩ := hkeys (a2p, a2q) (List.mem_cons_self _ _)
              have hlt2 := hrest (rp, rq) (hre ▸ List.mem_cons_self _ _) pq3 hpq3
              simp only at hkey
              omega
        rcases fillLoopF_singleton (1 + askQ.length) o askQ bd bo (by omega) hpos
            hfr.1 hnd with hA | hB
        · -- the new order fills completely: its level is erased and
          -- the loop exits at the next pass
          rw [← hF1] at hA
          have hbe : F1.bq.isEmpty = true := by rw [hA.1]; rfl
          simp only [if_pos hbe]
          by_cases hae : F1.aq.isEmpty = true
          · simp only [if_pos hae]
            rw [eraseKey_cons_self p [o] rest, eraseKey_cons_self ap askQ ta]
            rw [matchLoopF_done f _ (hnext _ _ _ (by
              intro pq2 hpq2
              exact ⟨pq2, List.mem_cons_of_mem _ hpq2, rfl⟩))]
            left
            refine ⟨rfl, hA.2.2, ?_, ?_⟩
            · exact hfr.2
            · show sumTradeQty (F1.trades ++ []) = o.remainingQuantity
              rw [List.append_nil]
              exact hA.2.1
          · simp only [if_neg hae]
            rw [eraseKey_cons_self p [o] rest,
              setKeySorted_cons_self ltPrice ap F1.aq askQ ta (ltPrice_irrefl ap)]
            rw [matchLoopF_done f _ (hnext _ _ _ (by
              intro pq2 hpq2
              rcases List.mem_cons.mp hpq2 with h1 | h1
              · exact ⟨(ap, askQ), List.mem_cons_self _ _, by rw [h1]⟩
              · exact ⟨pq2, List.mem_cons_of_mem _ h1, rfl⟩))]
            left
            refine ⟨rfl, hA.2.2, ?_, ?_⟩
            · show o.orderId ∉ queueIds ((ap, F1.aq) :: ta)
              simp only [queueIds, List.mem_append, not_or]
              refine ⟨?_, hfr.2⟩
              intro hc
              simp only [List.mem_map] at hc
              obtain ⟨o2, ho2, hid⟩ := hc
              exact hfr.1 (hid ▸ hids o2 ho2)
            · show sumTradeQty (F1.trades ++ []) = o.remainingQuantity
              rw [List.append_nil]
              exact hA.2.1
        · -- the ask level is consumed completely: recurse on the tail
          obtain ⟨hB1, hB2, hB3, hB4, hB5⟩ := hB
          rw [← hF1] at hB1 hB2 hB3 hB4 hB5
          have hbe : ¬ F1.bq.isEmpty = true := by
            rw [hB1]
            simp
          have hae : F1.aq.isEmpty = true := by rw [hB2]; rfl
          simp only [if_neg hbe, if_pos hae]
          rw [eraseKey_cons_self ap askQ ta,
            setKeySorted_cons_self gtPrice p F1.bq ([o]) rest (gtPrice_irrefl p), hB1]
          have hta : ta.length + 1 ≤ f := by omega
          rcases ih ⟨eraseKey ap F1.data,
              (p, [o.Fill (sumTradeQty F1.trades)]) :: rest, ta, F1.orders⟩
              p (o.Fill (sumTradeQty F1.trades)) rest rfl
              (by
                show 0 < o.remainingQuantity - sumTradeQty F1.trades
                omega)
              (by
                intro pq hpq aq2 haq2
                exact hrest pq hpq aq2 (List.mem_cons_of_mem _ haq2))
              (by
                have h2 := hs
                simp only [List.map_cons] at h2
                exact h2.tail)
              (by
                show (o.Fill (sumTradeQty F1.trades)).orderId ∉ queueIds ta
                exact hfr.2)
              (fillLoopF_orders_nodup _ _ _ _ _ hnd)
              hta with hA2 | hB2x
          · left
            obtain ⟨g1, g2, g3, g4⟩ := hA2
            refine ⟨g1, g2, g3, ?_⟩
            show sumTradeQty (F1.trades ++ _) = o.remainingQuantity
            rw [sumTradeQty_append]
            have g4b : sumTradeQty (matchLoopF f _).trades =
                o.remainingQuantity - sumTradeQty F1.trades := g4
            omega
          · right
            obtain ⟨g1, g2, g3, g4, g5⟩ := hB2x
            refine ⟨?_, ?_, ?_, ?_, g5⟩
            · rw [sumTradeQty_append, g1, Order.Fill_Fill]
            · rw [sumTradeQty_append]
              have g2b : sumTradeQty (matchLoopF f _).trades <
                  o.remainingQuantity - sumTradeQty F1.trades := g2
              omega
            · rw [sumTradeQty_append]
              show sumTradeQty F1.trades + _ = asksLESum p ((ap, askQ) :: ta)
              simp only [asksLESum, if_pos (Int.not_lt.mp hpa)]
              have g3b : sumTradeQty (matchLoopF f ⟨eraseKey ap F1.data,
                  (p, [o.Fill (sumTradeQty F1.trades)]) :: rest, ta,
                  F1.orders⟩).trades = asksLESum p ta := g3
              omega
            · exact g4.trans hB5

/-- Mirror of `matchLoop_top_buy` for a freshly admitted sell order sitting
alone at the top of the ask side: the loop either consumes it completely or
consumes the entire crossable bid window at or above `p` and leaves it at the
top with the leftover. -/
theorem matchLoop_top_sell (f : Nat) : ∀ (b : Book) (p : Int) (o : Order)
    (rest : List (Int × List Order)),
    b.asks = (p, [o]) :: rest →
    0 < o.remainingQuantity →
    (∀ pq ∈ rest, ∀ bq2 ∈ b.bids, bq2.1 < pq.1) →
    List.Chain' (· > ·) (b.bids.map Prod.fst) →
    o.orderId ∉ queueIds b.bids →
    (b.orders.map Prod.fst).Nodup →
    b.bids.length + 1 ≤ f →
    ((matchLoopF f b).book.asks = rest ∧
      lookupKey o.orderId (matchLoopF f b).book.orders = none ∧
      o.orderId ∉ queueIds (matchLoopF f b).book.bids ∧
      sumTradeQty (matchLoopF f b).trades = o.remainingQuantity) ∨
    ((matchLoopF f b).book.asks =
        (p, [o.Fill (sumTradeQty (matchLoopF f b).trades)]) :: rest ∧
      sumTradeQty (matchLoopF f b).trades < o.remainingQuantity ∧
      sumTradeQty (matchLoopF f b).trades = bidsGESum p b.bids ∧
      lookupKey o.orderId (matchLoopF f b).book.orders =
        lookupKey o.orderId b.orders ∧
      o.orderId ∉ queueIds (matchLoopF f b).book.bids) := by
  induction f with
  | zero =>
    intro b p o rest hb hpos hrest hs hfr hnd hf
    exact absurd hf (by omega)
  | succ f ih =>
    intro b p o rest hb hpos hrest hs hfr hnd hf
    obtain ⟨bd, bb, ba, bo⟩ := b
    simp only at hb hrest hs hfr hnd hf
    subst hb
    cases bb with
    | nil =>
      right
      rw [matchLoopF_done (f + 1) ⟨bd, [], (p, [o]) :: rest, bo⟩ (by rfl)]
      refine ⟨?_, ?_, rfl, rfl, ?_⟩
      · show (p, [o]) :: rest = (p, [o.Fill (sumTradeQty [])]) :: rest
        simp [sumTradeQty, Order.Fill_zero]
      · show sumTradeQty [] < o.remainingQuantity
        simpa [sumTradeQty] using hpos
      · simpa using hfr
    | cons bhd tb =>
      obtain ⟨bp, bidQ⟩ := bhd
      by_cases hpa : bp < p
      · right
        rw [matchLoopF_done (f + 1) ⟨bd, (bp, bidQ) :: tb, (p, [o]) :: rest, bo⟩
          (by simp [loopDoneB, hpa])]
        refine ⟨?_, ?_, ?_, rfl, ?_⟩
        · show (p, [o]) :: rest = (p, [o.Fill (sumTradeQty [])]) :: rest
          simp [sumTradeQty, Order.Fill_zero]
        · show sumTradeQty [] < o.remainingQuantity
          simpa [sumTradeQty] using hpos
        · show sumTradeQty [] = bidsGESum p ((bp, bidQ) :: tb)
          rw [bidsGESum_zero]
          · rfl
          · intro pq hpq
            rcases List.mem_cons.mp hpq with h1 | h1
            · exact h1 ▸ hpa
            · have := chain'_head_gt bp (tb.map Prod.fst)
                (by simpa using hs) pq.1 (List.mem_map.mpr ⟨pq, h1, rfl⟩)
              omega
        · simpa using hfr
      · dsimp only [matchLoopF]
        rw [if_neg hpa]
        simp only [fillLoop, List.length_singleton]
        simp only [List.length_cons] at hf
        simp only [queueIds, List.mem_append, not_or] at hfr
        set F1 := fillLoopF (bidQ.length + 1) bidQ [o] bd bo with hF1
        have hids : ∀ o2 ∈ F1.bq, o2.orderId ∈ bidQ.map Order.orderId := by
          intro o2 ho2
          have hbr : F1.bq = (fillQT (bidQ.length + 1) bidQ [o]).bq :=
            (fillLoopF_eq_fillQT _ _ _ _ _).1
          rw [hbr] at ho2
          obtain ⟨o3, ho3, hw⟩ :=
            (fillQT_main (bidQ.length + 1) bidQ [o]).2.2.1 o2 ho2
          exact List.mem_map.mpr ⟨o3, ho3, hw.1.symm⟩
        have hnext : ∀ (d2 : List (Int × LevelData)) (bb2 : List (Int × List Order))
            (os2 : List (Nat × OrderEntry)),
            (∀ pq2 ∈ bb2, ∃ pq3 ∈ (bp, bidQ) :: tb, pq2.1 = pq3.1) →
            loopDoneB ⟨d2, bb2, rest, os2⟩ = true := by
          intro d2 bb2 os2 hkeys
          cases bb2 with
          | nil => rfl
          | cons bh2 tb2 =>
            obtain ⟨b2p, b2q⟩ := bh2
            rcases hre : rest with _ | ⟨⟨rp, rq⟩, rt⟩
            · rfl
            · simp only [loopDoneB]
              apply decide_eq_true
              obtain ⟨pq3, hpq3, hkey⟩ := hkeys (b2p, b2q) (List.mem_cons_self _ _)
              have hlt2 := hrest (rp, rq) (hre ▸ List.mem_cons_self _ _) pq3 hpq3
              simp only at hkey
              omega
        rcases fillLoopF_singleton_ask (bidQ.length + 1) o bidQ bd bo (by omega) hpos
            hfr.1 hnd with hA | hB
        · -- the new sell order fills completely: its level is erased and
          -- the loop exits at the next pass
          rw [← hF1] at hA
          have hae : F1.aq.isEmpty = true := by rw [hA.1]; rfl
          by_cases hbe : F1.bq.isEmpty = true
          · simp only [if_pos hbe, if_pos hae]
            rw [eraseKey_cons_self bp bidQ tb, eraseKey_cons_self p [o] rest]
            rw [matchLoopF_done f _ (hnext _ _ _ (by
              intro pq2 hpq2
              exact ⟨pq2, List.mem_cons_of_mem _ hpq2, rfl⟩))]
            left
            refine ⟨rfl, hA.2.2, ?_, ?_⟩
            · exact hfr.2
            · show sumTradeQty (F1.trades ++ []) = o.remainingQuantity
              rw [List.append_nil]
              exact hA.2.1
          · simp only [if_neg hbe, if_pos hae]
            rw [setKeySorted_cons_self gtPrice bp F1.bq bidQ tb (gtPrice_irrefl bp),
              eraseKey_cons_self p [o] rest]
            rw [matchLoopF_done f _ (hnext _ _ _ (by
              intro pq2 hpq2
              rcases List.mem_cons.mp hpq2 with h1 | h1
              · exact ⟨(bp, bidQ), List.mem_cons_self _ _, by rw [h1]⟩
              · exact ⟨pq2, List.mem_cons_of_mem _ h1, rfl⟩))]
            left
            refine ⟨rfl, hA.2.2, ?_, ?_⟩
            · show o.orderId ∉ queueIds ((bp, F1.bq) :: tb)
              simp only [queueIds, List.mem_append, not_or]
              refine ⟨?_, hfr.2⟩
              intro hc
              simp only [List.mem_map] at hc
              obtain ⟨o2, ho2, hid⟩ := hc
              exact hfr.1 (hid ▸ hids o2 ho2)
            · show sumTradeQty (F1.trades ++ []) = o.remainingQuantity
              rw [List.append_nil]
              exact hA.2.1
        · -- the bid level is consumed completely: recurse on the tail
          obtain ⟨hB1, hB2, hB3, hB4, hB5⟩ := hB
          rw [← hF1] at hB1 hB2 hB3 hB4 hB5
          have hbe : F1.bq.isEmpty = true := by rw [hB2]; rfl
          have hae : ¬ F1.aq.isEmpty = true := by
            rw [hB1]
            simp
          simp only [if_pos hbe, if_neg hae]
          rw [eraseKey_cons_self bp bidQ tb,
            setKeySorted_cons_self ltPrice p F1.aq ([o]) rest (ltPrice_irrefl p), hB1]
          have htb : tb.length + 1 ≤ f := by omega
          rcases ih ⟨eraseKey bp F1.data, tb,
              (p, [o.Fill (sumTradeQty F1.trades)]) :: rest, F1.orders⟩
              p (o.Fill (sumTradeQty F1.trades)) rest rfl
              (by
                show 0 < o.remainingQuantity - sumTradeQty F1.trades
                omega)
              (by
                intro pq hpq bq2 hbq2
                exact hrest pq hpq bq2 (List.mem_cons_of_mem _ hbq2))
              (by
                have h2 := hs
                simp only [List.map_cons] at h2
                exact h2.tail)
              (by
                show (o.Fill (sumTradeQty F1.trades)).orderId ∉ queueIds tb
                exact hfr.2)
              (fillLoopF_orders_nodup _ _ _ _ _ hnd)
              htb with hA2 | hB2x
          · left
            obtain ⟨g1, g2, g3, g4⟩ := hA2
            refine ⟨g1, g2, g3, ?_⟩
            show sumTradeQty (F1.trades ++ _) = o.remainingQuantity
            rw [sumTradeQty_append]
            have g4b : sumTradeQty (matchLoopF f _).trades =
                o.remainingQuantity - sumTradeQty F1.trades := g4
            omega
          · right
            obtain ⟨g1, g2, g3, g4, g5⟩ := hB2x
            refine ⟨?_, ?_, ?_, ?_, g5⟩
            · rw [sumTradeQty_append, g1, Order.Fill_Fill]
            · rw [sumTradeQty_append]
              have g2b : sumTradeQty (matchLoopF f _).trades <
                  o.remainingQuantity - sumTradeQty F1.trades := g2
              omega
            · rw [sumTradeQty_append]
              show sumTradeQty F1.trades + _ = bidsGESum p ((bp, bidQ) :: tb)
              simp only [bidsGESum, if_pos (Int.not_lt.mp hpa)]
              have g3b : sumTradeQty (matchLoopF f ⟨eraseKey bp F1.data, tb,
                  (p, [o.Fill (sumTradeQty F1.trades)]) :: rest,
                  F1.orders⟩).trades = bidsGESum p tb := g3
              omega
            · exact g4.trans hB5

theorem lookupKey_cons_self {α β : Type} [DecidableEq α] (k : α) (v : β)
    (t : List (α × β)) : lookupKey k ((k, v) :: t) = some v := by
  simp [lookupKey]

theorem setKeySorted_front {α β : Type} [DecidableEq α] (lt : α → α → Bool)
    (k : α) (v : β) (l : List (α × β)) (h : ∀ pq ∈ l, lt k pq.1 = true) :
    setKeySorted lt k v l = (k, v) :: l := by
  cases l with
  | nil => rfl
  | cons hd t =>
    obtain ⟨k2, v2⟩ := hd
    have h2 := h (k2, v2) (List.mem_cons_self _ _)
    simp only [setKeySorted]
    rw [if_pos h2]

/-- The bid-side half of the tail cleanup of `Orderbook::MatchOrders`: if the
front order of the best bid level is FillAndKill, cancel it. -/
def fakCleanupBid (bk : Book) : Book :=
  match bk.bids with
  | (_, o :: _) :: _ =>
    if o.orderType = OrderType.FillAndKill then CancelOrderInternal bk o.orderId
    else bk
  | _ => bk

/-- The ask-side half of the tail cleanup of `Orderbook::MatchOrders`. -/
def fakCleanupAsk (bk : Book) : Book :=
  match bk.asks with
  | (_, o :: _) :: _ =>
    if o.orderType = OrderType.FillAndKill then CancelOrderInternal bk o.orderId
    else bk
  | _ => bk

/-- `MatchOrders` is the matching loop followed by the two cleanup halves. -/
theorem matchOrders_eq (b : Book) :
    MatchOrders b = (fakCleanupAsk (fakCleanupBid (matchLoopF (bookMeasure b) b).book),
      (matchLoopF (bookMeasure b) b).trades) := rfl

theorem not_resident_fakCleanupBid (bk : Book) (i : Nat) (h : ¬ Resident bk i) :
    ¬ Resident (fakCleanupBid bk) i := by
  unfold fakCleanupBid
  rcases hbb : bk.bids with _ | ⟨⟨p, _ | ⟨o1, q⟩⟩, t⟩
  · exact h
  · exact h
  · show ¬ Resident (if o1.orderType = OrderType.FillAndKill
        then CancelOrderInternal bk o1.orderId else bk) i
    split
    · exact not_resident_cancel _ _ _ h
    · exact h

theorem not_resident_fakCleanupAsk (bk : Book) (i : Nat) (h : ¬ Resident bk i) :
    ¬ Resident (fakCleanupAsk bk) i := by
  unfold fakCleanupAsk
  rcases hba : bk.asks with _ | ⟨⟨p, _ | ⟨o1, q⟩⟩, t⟩
  · exact h
  · exact h
  · show ¬ Resident (if o1.orderType = OrderType.FillAndKill
        then CancelOrderInternal bk o1.orderId else bk) i
    split
    · exact not_resident_cancel _ _ _ h
    · exact h

theorem fakCleanupBid_id (bk : Book)
    (h : ∀ (p : Int) (o1 : Order) (q : List Order) (t : List (Int × List Order)),
      bk.bids = (p, o1 :: q) :: t → ¬ o1.orderType = OrderType.FillAndKill) :
    fakCleanupBid bk = bk := by
  unfold fakCleanupBid
  rcases hbb : bk.bids with _ | ⟨⟨p, _ | ⟨o1, q⟩⟩, t⟩
  · rfl
  · rfl
  · show (if o1.orderType = OrderType.FillAndKill
        then CancelOrderInternal bk o1.orderId else bk) = bk
    rw [if_neg (h p o1 q t hbb)]

theorem fakCleanupBid_fire (bk : Book) (p : Int) (o1 : Order) (q : List Order)
    (t : List (Int × List Order)) (hbb : bk.bids = (p, o1 :: q) :: t)
    (hty : o1.orderType = OrderType.FillAndKill) :
    fakCleanupBid bk = CancelOrderInternal bk o1.orderId := by
  unfold fakCleanupBid
  rw [hbb]
  show (if o1.orderType = OrderType.FillAndKill
      then CancelOrderInternal bk o1.orderId else bk) = _
  rw [if_pos hty]

theorem fakCleanupAsk_fire (bk : Book) (p : Int) (o1 : Order) (q : List Order)
    (t : List (Int × List Order)) (hba : bk.asks = (p, o1 :: q) :: t)
    (hty : o1.orderType = OrderType.FillAndKill) :
    fakCleanupAsk bk = CancelOrderInternal bk o1.orderId := by
  unfold fakCleanupAsk
  rw [hba]
  show (if o1.orderType = OrderType.FillAndKill
      then CancelOrderInternal bk o1.orderId else bk) = _
  rw [if_pos hty]

/-- Every order resident on the bid side after the matching loop is a
fill-weakening of an order resident on the bid side before it. -/
theorem matchLoopF_bids_weaken (f : Nat) : ∀ (b : Book),
    ∀ pq ∈ (matchLoopF f b).book.bids, ∀ o2 ∈ pq.2,
    ∃ pq3 ∈ b.bids, ∃ o3 ∈ pq3.2, WeakensTo o2 o3 := by
  induction f with
  | zero =>
    intro b pq hpq o2 ho2
    exact ⟨pq, hpq, o2, ho2, weakensTo_refl o2⟩
  | succ f ih =>
    intro b pq hpq o2 ho2
    obtain ⟨bd, bb, ba, bo⟩ := b
    cases bb with
    | nil => exact ⟨pq, hpq, o2, ho2, weakensTo_refl o2⟩
    | cons bhd tb =>
      cases ba with
      | nil => exact ⟨pq, hpq, o2, ho2, weakensTo_refl o2⟩
      | cons ahd ta =>
        obtain ⟨bp, bidQ⟩ := bhd
        obtain ⟨ap, askQ⟩ := ahd
        by_cases hlt : bp < ap
        · dsimp only [matchLoopF] at hpq
          rw [if_pos hlt] at hpq
          exact ⟨pq, hpq, o2, ho2, weakensTo_refl o2⟩
        · dsimp only [matchLoopF] at hpq
          rw [if_neg hlt] at hpq
          obtain ⟨pq3, hpq3, o3, ho3, hw⟩ := ih _ pq hpq o2 ho2
          simp only [fillLoop] at hpq3
          split at hpq3
          · exact ⟨pq3, eraseKey_mem _ _ pq3 hpq3, o3, ho3, hw⟩
          · rcases mem_setKeySorted _ _ _ _ pq3 hpq3 with h1 | h1
            · subst h1
              have hbr : (fillLoopF (bidQ.length + askQ.length) bidQ askQ bd bo).bq =
                  (fillQT (bidQ.length + askQ.length) bidQ askQ).bq :=
                (fillLoopF_eq_fillQT _ _ _ _ _).1
              rw [hbr] at ho3
              obtain ⟨o4, ho4, hw2⟩ :=
                (fillQT_main (bidQ.length + askQ.length) bidQ askQ).2.2.1 o3 ho3
              exact ⟨(bp, bidQ), List.mem_cons_self _ _, o4, ho4, weakensTo_trans hw hw2⟩
            · exact ⟨pq3, h1, o3, ho3, hw⟩

/-- Cancelling the lone order at the top bid level: the level is dropped, the
id-index entry erased, and `Remove(remaining)` applied at the order's price. -/
theorem cancelOrderInternal_top_bid (bk : Book) (i : Nat) (p : Int) (o1 : Order)
    (t : List (Int × List Order))
    (hbb : bk.bids = (p, [o1]) :: t)
    (hid : o1.orderId = i)
    (he : lookupKey i bk.orders = some ⟨Side.Buy, p⟩) :
    CancelOrderInternal bk i =
      ⟨UpdateLevelData bk.data o1.price o1.remainingQuantity LevelAction.Remove,
       t, bk.asks, eraseKey i bk.orders⟩ := by
  unfold CancelOrderInternal
  rw [he]
  simp [hbb, hid, lookupKey_cons_self, findById, List.find?, eraseFirstById,
    eraseKey_cons_self]

/-- Cancelling the lone order at the top ask level. -/
theorem cancelOrderInternal_top_ask (bk : Book) (i : Nat) (p : Int) (o1 : Order)
    (t : List (Int × List Order))
    (hba : bk.asks = (p, [o1]) :: t)
    (hid : o1.orderId = i)
    (he : lookupKey i bk.orders = some ⟨Side.Sell, p⟩) :
    CancelOrderInternal bk i =
      ⟨UpdateLevelData bk.data o1.price o1.remainingQuantity LevelAction.Remove,
       bk.bids, t, eraseKey i bk.orders⟩ := by
  unfold CancelOrderInternal
  rw [he]
  simp [hba, hid, lookupKey_cons_self, findById, List.find?, eraseFirstById,
    eraseKey_cons_self]

/-- C2: after `AddOrder` of a FillAndKill order on a well-formed book — the id
is fresh, the sides are sorted (bids descending, asks ascending), no bid level
crosses an ask level, no already-resident order is itself FillAndKill, and the
id index has no duplicate keys — the order's id is not resident: it is in no
queue and not in the id index, whether the order matched fully, partially, or
not at all. -/
theorem addOrder_fak_not_resident (b : Book) (o : Order)
    (hty : o.orderType = OrderType.FillAndKill)
    (hfresh : ¬ Resident b o.orderId)
    (hpos : 0 < o.remainingQuantity)
    (hsb : List.Chain' (· > ·) (b.bids.map Prod.fst))
    (hsa : List.Chain' (· < ·) (b.asks.map Prod.fst))
    (hnc : ∀ pb ∈ b.bids, ∀ pa ∈ b.asks, pb.1 < pa.1)
    (hnofak : ∀ pq ∈ b.bids, ∀ o2 ∈ pq.2, ¬ o2.orderType = OrderType.FillAndKill)
    (hnd : (b.orders.map Prod.fst).Nodup) :
    ¬ Resident (AddOrder b o).1 o.orderId := by
  have hlook : lookupKey o.orderId b.orders = none := by
    cases hl : lookupKey o.orderId b.orders with
    | none => rfl
    | some e => exact absurd (Or.inl (by rw [hl]; rfl)) hfresh
  have hfrb : o.orderId ∉ queueIds b.bids := fun hc => hfresh (Or.inr (Or.inl hc))
  have hfra : o.orderId ∉ queueIds b.asks := fun hc => hfresh (Or.inr (Or.inr hc))
  cases hcm : CanMatch b o.side o.price with
  | false =>
    have hAdd : AddOrder b o = (b, []) := by
      unfold AddOrder
      simp [hlook, hty, hcm]
    rw [hAdd]
    exact hfresh
  | true =>
    have hAdd : (AddOrder b o).1 = (MatchOrders (insertOrder b o)).1 := by
      unfold AddOrder
      simp [hlook, hty, hcm]
    rw [hAdd]
    cases hside : o.side with
    | Buy =>
      rw [hside] at hcm
      rcases hasks : b.asks with _ | ⟨⟨bestAsk, q0⟩, ta0⟩
      · simp only [CanMatch, hasks] at hcm
        exact absurd hcm (by decide)
      · have hcross : bestAsk ≤ o.price := by
          simp only [CanMatch, hasks] at hcm
          exact of_decide_eq_true hcm
        have hbelow : ∀ pb ∈ b.bids, pb.1 < o.price := by
          intro pb hpb
          have := hnc pb hpb (bestAsk, q0) (by rw [hasks]; exact List.mem_cons_self _ _)
          omega
        have hql : lookupKey o.price b.bids = none := by
          apply lookupKey_not_mem
          intro hc
          obtain ⟨pb, hpb, hpb2⟩ := List.mem_map.mp hc
          exact absurd (hpb2 ▸ hbelow pb hpb) (lt_irrefl _)
        have hins : insertOrder b o =
            ⟨UpdateLevelData b.data o.price o.initialQuantity LevelAction.Add,
             (o.price, [o]) :: b.bids, b.asks,
             setKeySorted ltId o.orderId ⟨Side.Buy, o.price⟩ b.orders⟩ := by
          simp only [insertOrder, hside, hql, Option.getD_none, List.nil_append]
          rw [setKeySorted_front]
          intro pq hpq
          show gtPrice o.price pq.1 = true
          simp only [gtPrice, decide_eq_true_eq]
          exact hbelow pq hpq
        rw [hins]
        set b1 : Book :=
          ⟨UpdateLevelData b.data o.price o.initialQuantity LevelAction.Add,
           (o.price, [o]) :: b.bids, b.asks,
           setKeySorted ltId o.orderId ⟨Side.Buy, o.price⟩ b.orders⟩ with hb1
        have hndI : (b1.orders.map Prod.fst).Nodup :=
          nodup_setKeySorted_fresh ltId o.orderId _ b.orders hlook hnd
        have hfuel : b.asks.length + 1 ≤ bookMeasure b1 := by
          rw [hb1]
          simp only [bookMeasure, queuesLen, List.length_cons, List.length_singleton]
          omega
        rcases matchLoop_top_buy (bookMeasure b1) b1 o.price o b.bids (by rw [hb1])
            hpos (fun pq hpq aq2 haq2 => hnc pq hpq aq2 haq2) hsa hfra hndI hfuel
            with hG | hS
        · rw [matchOrders_eq]
          apply not_resident_fakCleanupAsk
          apply not_resident_fakCleanupBid
          intro hres
          rcases hres with h1 | h1 | h1
          · rw [hG.2.1] at h1
            simp at h1
          · rw [hG.1] at h1
            exact hfrb h1
          · exact hG.2.2.1 h1
        · rw [matchOrders_eq]
          apply not_resident_fakCleanupAsk
          obtain ⟨g1, g2, g3, g4, g5⟩ := hS
          have hlookR : lookupKey o.orderId
              (matchLoopF (bookMeasure b1) b1).book.orders =
              some ⟨Side.Buy, o.price⟩ := by
            rw [g4]
            exact lookupKey_setKeySorted_self ltId o.orderId _ b.orders
          rw [fakCleanupBid_fire _ o.price _ [] b.bids g1 hty]
          show ¬ Resident (CancelOrderInternal
              (matchLoopF (bookMeasure b1) b1).book o.orderId) o.orderId
          rw [cancelOrderInternal_top_bid _ o.orderId o.price _ b.bids g1 rfl hlookR]
          intro hres
          rcases hres with h1 | h1 | h1
          · rw [lookupKey_eraseKey_self o.orderId _
              (matchLoopF_orders_nodup _ _ hndI)] at h1
            simp at h1
          · exact hfrb h1
          · exact g5 h1
    | Sell =>
      rw [hside] at hcm
      rcases hbids : b.bids with _ | ⟨⟨bestBid, q0⟩, tb0⟩
      · simp only [CanMatch, hbids] at hcm
        exact absurd hcm (by decide)
      · have hcross : o.price ≤ bestBid := by
          simp only [CanMatch, hbids] at hcm
          exact of_decide_eq_true hcm
        have habove : ∀ pa ∈ b.asks, o.price < pa.1 := by
          intro pa hpa
          have := hnc (bestBid, q0) (by rw [hbids]; exact List.mem_cons_self _ _) pa hpa
          omega
        have hql : lookupKey o.price b.asks = none := by
          apply lookupKey_not_mem
          intro hc
          obtain ⟨pa, hpa, hpa2⟩ := List.mem_map.mp hc
          exact absurd (hpa2 ▸ habove pa hpa) (lt_irrefl _)
        have hins : insertOrder b o =
            ⟨UpdateLevelData b.data o.price o.initialQuantity LevelAction.Add,
             b.bids, (o.price, [o]) :: b.asks,
             setKeySorted ltId o.orderId ⟨Side.Sell, o.price⟩ b.orders⟩ := by
          simp only [insertOrder, hside, hql, Option.getD_none, List.nil_append]
          rw [setKeySorted_front]
          intro pq hpq
          show ltPrice o.price pq.1 = true
          simp only [ltPrice, decide_eq_true_eq]
          exact habove pq hpq
        rw [hins]
        set b1 : Book :=
          ⟨UpdateLevelData b.data o.price o.initialQuantity LevelAction.Add,
           b.bids, (o.price, [o]) :: b.asks,
           setKeySorted ltId o.orderId ⟨Side.Sell, o.price⟩ b.orders⟩ with hb1
        have hndI : (b1.orders.map Prod.fst).Nodup :=
          nodup_setKeySorted_fresh ltId o.orderId _ b.orders hlook hnd
        have hfuel : b.bids.length + 1 ≤ bookMeasure b1 := by
          rw [hb1]
          simp only [bookMeasure, queuesLen, List.length_cons, List.length_singleton]
          omega
        rcases matchLoop_top_sell (bookMeasure b1) b1 o.price o b.asks (by rw [hb1])
            hpos (fun pq hpq bq2 hbq2 => hnc bq2 hbq2 pq hpq) hsb hfrb hndI hfuel
            with hG | hS
        · rw [matchOrders_eq]
          apply not_resident_fakCleanupAsk
          apply not_resident_fakCleanupBid
          intro hres
          rcases hres with h1 | h1 | h1
          · rw [hG.2.1] at h1
            simp at h1
          · exact hG.2.2.1 h1
          · rw [hG.1] at h1
            exact hfra h1
        · rw [matchOrders_eq]
          obtain ⟨g1, g2, g3, g4, g5⟩ := hS
          have hcleanB : fakCleanupBid (matchLoopF (bookMeasure b1) b1).book =
              (matchLoopF (bookMeasure b1) b1).book := by
            apply fakCleanupBid_id
            intro p1 o1 q1 t1 hbb1 hFAK
            obtain ⟨pq3, hpq3, o3, ho3, hw⟩ := matchLoopF_bids_weaken
              (bookMeasure b1) b1 (p1, o1 :: q1) (hbb1 ▸ List.mem_cons_self _ _) o1
              (List.mem_cons_self _ _)
            exact hnofak pq3 hpq3 o3 ho3 (hw.2.2.2.1.symm.trans hFAK)
          rw [hcleanB]
          have hlookR : lookupKey o.orderId
              (matchLoopF (bookMeasure b1) b1).book.orders =
              some ⟨Side.Sell, o.price⟩ := by
            rw [g4]
            exact lookupKey_setKeySorted_self ltId o.orderId _ b.orders
          rw [fakCleanupAsk_fire _ o.price _ [] b.asks g1 hty]
          show ¬ Resident (CancelOrderInternal
              (matchLoopF (bookMeasure b1) b1).book o.orderId) o.orderId
          rw [cancelOrderInternal_top_ask _ o.orderId o.price _ b.asks g1 rfl hlookR]
          intro hres
          rcases hres with h1 | h1 | h1
          · rw [lookupKey_eraseKey_self o.orderId _
              (matchLoopF_orders_nodup _ _ hndI)] at h1
            simp at h1
          · exact g5 h1
          · exact hfra h1

theorem addOrder_fak_not_resident_witness :
    ¬ Resident (AddOrder wBookS ⟨OrderType.FillAndKill, 50, Side.Buy, 101, 3, 3⟩).1 50 :=
  addOrder_fak_not_resident wBookS ⟨OrderType.FillAndKill, 50, Side.Buy, 101, 3, 3⟩
    rfl (by decide) (by decide)
    (by show List.Chain' (· > ·) ([] : List Int); exact List.chain'_nil)
    (by show List.Chain' (· < ·) ([101, 102] : List Int)
        exact List.chain'_cons.mpr ⟨by norm_num, List.chain'_singleton _⟩)
    (by decide) (by decide) (by decide)

theorem asksLESum_all (p : Int) : ∀ (m : List (Int × List Order)),
    (∀ pq ∈ m, pq.1 ≤ p) → asksLESum p m = queuesSumRem m := by
  intro m
  induction m with
  | nil => intro h; rfl
  | cons hd t ih =>
    obtain ⟨k, l⟩ := hd
    intro h
    have hk : k ≤ p := h (k, l) (List.mem_cons_self _ _)
    simp only [asksLESum, queuesSumRem, if_pos hk]
    rw [ih (fun pq hpq => h pq (List.mem_cons_of_mem _ hpq))]

theorem bidsGESum_all (p : Int) : ∀ (m : List (Int × List Order)),
    (∀ pq ∈ m, p ≤ pq.1) → bidsGESum p m = queuesSumRem m := by
  intro m
  induction m with
  | nil => intro h; rfl
  | cons hd t ih =>
    obtain ⟨k, l⟩ := hd
    intro h
    have hk : p ≤ k := h (k, l) (List.mem_cons_self _ _)
    simp only [bidsGESum, queuesSumRem, if_pos hk]
    rw [ih (fun pq hpq => h pq (List.mem_cons_of_mem _ hpq))]

theorem chain'_getLast_max (w : Int) (q : List Order) :
    ∀ (l : List (Int × List Order)),
    List.Chain' (· < ·) (l.map Prod.fst) → l.getLast? = some (w, q) →
    ∀ pq ∈ l, pq.1 ≤ w := by
  intro l
  induction l with
  | nil =>
    intro _ hl
    simp at hl
  | cons hd t ih =>
    intro hs hl pq hpq
    cases t with
    | nil =>
      simp only [List.getLast?_singleton, Option.some.injEq] at hl
      rcases List.mem_singleton.mp hpq with rfl
      rw [hl]
    | cons b2 t2 =>
      rw [List.getLast?_cons_cons] at hl
      have hs2 : List.Chain' (· < ·) ((b2 :: t2).map Prod.fst) :=
        (List.chain'_cons.mp (by simpa using hs)).2
      rcases List.mem_cons.mp hpq with rfl | h1
      · have hmem : (w, q) ∈ b2 :: t2 := List.mem_of_getLast?_eq_some hl
        have := chain'_head_lt pq.1 ((b2 :: t2).map Prod.fst) (by simpa using hs)
          w (List.mem_map.mpr ⟨(w, q), hmem, rfl⟩)
        omega
      · exact ih hs2 hl pq h1

theorem chain'_getLast_min (w : Int) (q : List Order) :
    ∀ (l : List (Int × List Order)),
    List.Chain' (· > ·) (l.map Prod.fst) → l.getLast? = some (w, q) →
    ∀ pq ∈ l, w ≤ pq.1 := by
  intro l
  induction l with
  | nil =>
    intro _ hl
    simp at hl
  | cons hd t ih =>
    intro hs hl pq hpq
    cases t with
    | nil =>
      simp only [List.getLast?_singleton, Option.some.injEq] at hl
      rcases List.mem_singleton.mp hpq with rfl
      rw [hl]
    | cons b2 t2 =>
      rw [List.getLast?_cons_cons] at hl
      have hs2 : List.Chain' (· > ·) ((b2 :: t2).map Prod.fst) :=
        (List.chain'_cons.mp (by simpa using hs)).2
      rcases List.mem_cons.mp hpq with rfl | h1
      · have hmem : (w, q) ∈ b2 :: t2 := List.mem_of_getLast?_eq_some hl
        have := chain'_head_gt pq.1 ((b2 :: t2).map Prod.fst) (by simpa using hs)
          w (List.mem_map.mpr ⟨(w, q), hmem, rfl⟩)
        omega
      · exact ih hs2 hl pq h1

/-- A book holding one resident GTC ask, id 10, price 101, quantity 5: the
opposing liquidity for the C4 counterexample. -/
def mBookC4 : Book :=
  (AddOrder emptyBook ⟨OrderType.GoodTillCancel, 10, Side.Sell, 101, 5, 5⟩).1

/-- C4 counterexample: a Market Buy for 100 against 5 units of opposing
liquidity is rewritten to GTC at the synthesized worst ask 101, matches only
5 units, and then stays resident: the id remains in the book with `Size` 1 and
the bid side publicly shows the residual 95 at the synthetic price 101,
contradicting the claim that the synthesized price is never observable. -/
theorem marketOrderResidualObservable :
    Resident (AddOrder mBookC4 ⟨OrderType.Market, 50, Side.Buy, 0, 100, 100⟩).1 50 ∧
    lookupKey (101 : Int)
        (AddOrder mBookC4 ⟨OrderType.Market, 50, Side.Buy, 0, 100, 100⟩).1.bids =
      some [⟨OrderType.GoodTillCancel, 50, Side.Buy, 101, 100, 95⟩] ∧
    Size (AddOrder mBookC4 ⟨OrderType.Market, 50, Side.Buy, 0, 100, 100⟩).1 = 1 := by
  decide

/-- C4 (amended): on a well-formed book, a Market order whose remaining
quantity is at most the total opposing liquidity is fully consumed by the
matching loop — the trades of its `AddOrder` sum to its remaining quantity and
its id is not resident afterwards, so the synthesized worst-opposing price is
never publicly observable.  (Without the liquidity bound the claim is false:
see `marketOrderResidualObservable`.) -/
theorem addOrder_market_consumed (b : Book) (o : Order)
    (hty : o.orderType = OrderType.Market)
    (hfresh : ¬ Resident b o.orderId)
    (hpos : 0 < o.remainingQuantity)
    (hliqB : o.side = Side.Buy → o.remainingQuantity ≤ queuesSumRem b.asks)
    (hliqS : o.side = Side.Sell → o.remainingQuantity ≤ queuesSumRem b.bids)
    (hsb : List.Chain' (· > ·) (b.bids.map Prod.fst))
    (hsa : List.Chain' (· < ·) (b.asks.map Prod.fst))
    (hnc : ∀ pb ∈ b.bids, ∀ pa ∈ b.asks, pb.1 < pa.1)
    (hnd : (b.orders.map Prod.fst).Nodup) :
    sumTradeQty (AddOrder b o).2 = o.remainingQuantity ∧
    ¬ Resident (AddOrder b o).1 o.orderId := by
  have hlook : lookupKey o.orderId b.orders = none := by
    cases hl : lookupKey o.orderId b.orders with
    | none => rfl
    | some e => exact absurd (Or.inl (by rw [hl]; rfl)) hfresh
  have hfrb : o.orderId ∉ queueIds b.bids := fun hc => hfresh (Or.inr (Or.inl hc))
  have hfra : o.orderId ∉ queueIds b.asks := fun hc => hfresh (Or.inr (Or.inr hc))
  cases hside : o.side with
  | Buy =>
    have hliq := hliqB hside
    rcases hasks : b.asks with _ | ⟨⟨bestAsk, q0⟩, ta0⟩
    · rw [hasks] at hliq
      simp only [queuesSumRem] at hliq
      omega
    · have hne : b.asks ≠ [] := by rw [hasks]; exact List.cons_ne_nil _ _
      obtain ⟨⟨worstAsk, qL⟩, hlast⟩ :=
        Option.isSome_iff_exists.mp (List.getLast?_isSome.mpr hne)
      have hwmem : (worstAsk, qL) ∈ b.asks := List.mem_of_getLast?_eq_some hlast
      have hAdd : AddOrder b o = MatchOrders (insertOrder b
          ⟨OrderType.GoodTillCancel, o.orderId, o.side, worstAsk,
           o.initialQuantity, o.remainingQuantity⟩) := by
        unfold AddOrder
        simp [hlook, hty, hside, hlast, Order.ToGoodTillCancel]
      have hbelow : ∀ pb ∈ b.bids, pb.1 < worstAsk := fun pb hpb =>
        hnc pb hpb (worstAsk, qL) hwmem
      have hql : lookupKey worstAsk b.bids = none := by
        apply lookupKey_not_mem
        intro hc
        obtain ⟨pb, hpb, hpb2⟩ := List.mem_map.mp hc
        exact absurd (hpb2 ▸ hbelow pb hpb) (lt_irrefl _)
      have hins : insertOrder b
          ⟨OrderType.GoodTillCancel, o.orderId, o.side, worstAsk,
           o.initialQuantity, o.remainingQuantity⟩ =
          ⟨UpdateLevelData b.data worstAsk o.initialQuantity LevelAction.Add,
           (worstAsk, [⟨OrderType.GoodTillCancel, o.orderId, o.side, worstAsk,
             o.initialQuantity, o.remainingQuantity⟩]) :: b.bids, b.asks,
           setKeySorted ltId o.orderId ⟨Side.Buy, worstAsk⟩ b.orders⟩ := by
        simp only [insertOrder, hside, hql, Option.getD_none, List.nil_append]
        rw [setKeySorted_front]
        intro pq hpq
        show gtPrice worstAsk pq.1 = true
        simp only [gtPrice, decide_eq_true_eq]
        exact hbelow pq hpq
      rw [hAdd, hins]
      set b1 : Book :=
        ⟨UpdateLevelData b.data worstAsk o.initialQuantity LevelAction.Add,
         (worstAsk, [⟨OrderType.GoodTillCancel, o.orderId, o.side, worstAsk,
           o.initialQuantity, o.remainingQuantity⟩]) :: b.bids, b.asks,
         setKeySorted ltId o.orderId ⟨Side.Buy, worstAsk⟩ b.orders⟩ with hb1
      have hndI : (b1.orders.map Prod.fst).Nodup :=
        nodup_setKeySorted_fresh ltId o.orderId _ b.orders hlook hnd
      have hfuel : b.asks.length + 1 ≤ bookMeasure b1 := by
        rw [hb1]
        simp only [bookMeasure, queuesLen, List.length_cons, List.length_singleton]
        omega
      rcases matchLoop_top_buy (bookMeasure b1) b1 worstAsk
          ⟨OrderType.GoodTillCancel, o.orderId, o.side, worstAsk,
           o.initialQuantity, o.remainingQuantity⟩ b.bids (by rw [hb1])
          hpos (fun pq hpq aq2 haq2 => hnc pq hpq aq2 haq2) hsa hfra hndI hfuel
          with hG | hS
      · obtain ⟨g1, g2, g3, g4⟩ := hG
        rw [matchOrders_eq]
        constructor
        · exact g4
        · apply not_resident_fakCleanupAsk
          apply not_resident_fakCleanupBid
          intro hres
          rcases hres with h1 | h1 | h1
          · rw [g2] at h1
            simp at h1
          · rw [g1] at h1
            exact hfrb h1
          · exact g3 h1
      · obtain ⟨g1, g2, g3, g4, g5⟩ := hS
        rw [asksLESum_all worstAsk b.asks
          (chain'_getLast_max worstAsk qL b.asks hsa hlast)] at g3
        have g2b : sumTradeQty (matchLoopF (bookMeasure b1) b1).trades <
            o.remainingQuantity := g2
        exact absurd g3 (by omega)
  | Sell =>
    have hliq := hliqS hside
    rcases hbids : b.bids with _ | ⟨⟨bestBid, q0⟩, tb0⟩
    · rw [hbids] at hliq
      simp only [queuesSumRem] at hliq
      omega
    · have hne : b.bids ≠ [] := by rw [hbids]; exact List.cons_ne_nil _ _
      obtain ⟨⟨worstBid, qL⟩, hlast⟩ :=
        Option.isSome_iff_exists.mp (List.getLast?_isSome.mpr hne)
      have hwmem : (worstBid, qL) ∈ b.bids := List.mem_of_getLast?_eq_some hlast
      have hAdd : AddOrder b o = MatchOrders (insertOrder b
          ⟨OrderType.GoodTillCancel, o.orderId, o.side, worstBid,
           o.initialQuantity, o.remainingQuantity⟩) := by
        unfold AddOrder
        simp [hlook, hty, hside, hlast, Order.ToGoodTillCancel]
      have habove : ∀ pa ∈ b.asks, worstBid < pa.1 := fun pa hpa =>
        hnc (worstBid, qL) hwmem pa hpa
      have hql : lookupKey worstBid b.asks = none := by
        apply lookupKey_not_mem
        intro hc
        obtain ⟨pa, hpa, hpa2⟩ := List.mem_map.mp hc
        exact absurd (hpa2 ▸ habove pa hpa) (lt_irrefl _)
      have hins : insertOrder b
          ⟨OrderType.GoodTillCancel, o.orderId, o.side, worstBid,
           o.initialQuantity, o.remainingQuantity⟩ =
          ⟨UpdateLevelData b.data worstBid o.initialQuantity LevelAction.Add,
           b.bids, (worstBid, [⟨OrderType.GoodTillCancel, o.orderId, o.side, worstBid,
             o.initialQuantity, o.remainingQuantity⟩]) :: b.asks,
           setKeySorted ltId o.orderId ⟨Side.Sell, worstBid⟩ b.orders⟩ := by
        simp only [insertOrder, hside, hql, Option.getD_none, List.nil_append]
        rw [setKeySorted_front]
        intro pq hpq
        show ltPrice worstBid pq.1 = true
        simp only [ltPrice, decide_eq_true_eq]
        exact habove pq hpq
      rw [hAdd, hins]
      set b1 : Book :=
        ⟨UpdateLevelData b.data worstBid o.initialQuantity LevelAction.Add,
         b.bids, (worstBid, [⟨OrderType.GoodTillCancel, o.orderId, o.side, worstBid,
           o.initialQuantity, o.remainingQuantity⟩]) :: b.asks,
         setKeySorted ltId o.orderId ⟨Side.Sell, worstBid⟩ b.orders⟩ with hb1
      have hndI : (b1.orders.map Prod.fst).Nodup :=
        nodup_setKeySorted_fresh ltId o.orderId _ b.orders hlook hnd
      have hfuel : b.bids.length + 1 ≤ bookMeasure b1 := by
        rw [hb1]
        simp only [bookMeasure, queuesLen, List.length_cons, List.length_singleton]
        omega
      rcases matchLoop_top_sell (bookMeasure b1) b1 worstBid
          ⟨OrderType.GoodTillCancel, o.orderId, o.side, worstBid,
           o.initialQuantity, o.remainingQuantity⟩ b.asks (by rw [hb1])
          hpos (fun pq hpq bq2 hbq2 => hnc bq2 hbq2 pq hpq) hsb hfrb hndI hfuel
          with hG | hS
      · obtain ⟨g1, g2, g3, g4⟩ := hG
        rw [matchOrders_eq]
        constructor
        · exact g4
        · apply not_resident_fakCleanupAsk
          apply not_resident_fakCleanupBid
          intro hres
          rcases hres with h1 | h1 | h1
          · rw [g2] at h1
            simp at h1
          · exact g3 h1
          · rw [g1] at h1
            exact hfra h1
      · obtain ⟨g1, g2, g3, g4, g5⟩ := hS
        rw [bidsGESum_all worstBid b.bids
          (chain'_getLast_min worstBid qL b.bids hsb hlast)] at g3
        have g2b : sumTradeQty (matchLoopF (bookMeasure b1) b1).trades <
            o.remainingQuantity := g2
        exact absurd g3 (by omega)

theorem addOrder_market_consumed_witness :
    sumTradeQty (AddOrder wBookS ⟨OrderType.Market, 60, Side.Buy, 0, 7, 7⟩).2 = 7 ∧
    ¬ Resident (AddOrder wBookS ⟨OrderType.Market, 60, Side.Buy, 0, 7, 7⟩).1 60 :=
  addOrder_market_consumed wBookS ⟨OrderType.Market, 60, Side.Buy, 0, 7, 7⟩ rfl
    (by decide) (by decide) (by decide) (by decide)
    (by show List.Chain' (· > ·) ([] : List Int); exact List.chain'_nil)
    (by show List.Chain' (· < ·) ([101, 102] : List Int)
        exact List.chain'_cons.mpr ⟨by norm_num, List.chain'_singleton _⟩)
    (by decide) (by decide)

/-- Sum of the aggregate quantities over the price window `[lo, hi]` of the
aggregate table: the portion of `data_` that the `CanFullyFill` walk
accumulates (threshold-to-limit for a Buy, limit-to-threshold for a Sell). -/
def windowSum (lo hi : Int) : List (Int × LevelData) → Int
  | [] => 0
  | (k, d) :: t => (if lo ≤ k ∧ k ≤ hi then d.quantity else 0) + windowSum lo hi t

theorem windowSum_nonneg (lo hi : Int) : ∀ (data : List (Int × LevelData)),
    (∀ pq ∈ data, 0 ≤ pq.2.quantity) → 0 ≤ windowSum lo hi data := by
  intro data
  induction data with
  | nil => intro _; exact le_refl 0
  | cons hd t ih =>
    obtain ⟨k, d⟩ := hd
    intro h
    have h1 : (0 : Int) ≤ d.quantity := h (k, d) (List.mem_cons_self _ _)
    have h2 := ih (fun pq hpq => h pq (List.mem_cons_of_mem _ hpq))
    simp only [windowSum]
    by_cases hw : lo ≤ k ∧ k ≤ hi
    · rw [if_pos hw]
      omega
    · rw [if_neg hw]
      omega

/-- A successful `CanFullyFill` walk for a Buy shows the requested quantity is
bounded by the aggregate quantity in the threshold-to-limit window. -/
theorem canFullyFillLoop_le_buy (threshold price : Int) :
    ∀ (data : List (Int × LevelData)) (q : Int),
    (∀ pq ∈ data, 0 ≤ pq.2.quantity) →
    canFullyFillLoop Side.Buy threshold price data q = true →
    q ≤ windowSum threshold price data := by
  intro data
  induction data with
  | nil =>
    intro q _ h
    simp [canFullyFillLoop] at h
  | cons hd t ih =>
    obtain ⟨k, d⟩ := hd
    intro q hpos h
    have hpt := fun pq hpq => hpos pq (List.mem_cons_of_mem _ hpq)
    have hdq := hpos (k, d) (List.mem_cons_self _ _)
    simp only [canFullyFillLoop] at h
    simp only [windowSum]
    by_cases h1 : threshold > k
    · rw [if_pos (Or.inl ⟨trivial, h1⟩)] at h
      have := ih q hpt h
      rw [if_neg (fun hc => absurd hc.1 (not_le.mpr h1))]
      omega
    · rw [if_neg (fun hc => hc.elim (fun x => h1 x.2)
        (fun x => absurd x.1 (by decide)))] at h
      by_cases h2 : k > price
      · rw [if_pos (Or.inl ⟨trivial, h2⟩)] at h
        have := ih q hpt h
        rw [if_neg (fun hc => absurd hc.2 (not_le.mpr h2))]
        omega
      · rw [if_neg (fun hc => hc.elim (fun x => h2 x.2)
          (fun x => absurd x.1 (by decide)))] at h
        rw [if_pos ⟨not_lt.mp h1, not_lt.mp h2⟩]
        by_cases h3 : q ≤ d.quantity
        · have := windowSum_nonneg threshold price t hpt
          omega
        · rw [if_neg h3] at h
          have := ih (q - d.quantity) hpt h
          omega

/-- Mirror of `canFullyFillLoop_le_buy` for a Sell: the window runs from the
order's limit up to the threshold. -/
theorem canFullyFillLoop_le_sell (threshold price : Int) :
    ∀ (data : List (Int × LevelData)) (q : Int),
    (∀ pq ∈ data, 0 ≤ pq.2.quantity) →
    canFullyFillLoop Side.Sell threshold price data q = true →
    q ≤ windowSum price threshold data := by
  intro data
  induction data with
  | nil =>
    intro q _ h
    simp [canFullyFillLoop] at h
  | cons hd t ih =>
    obtain ⟨k, d⟩ := hd
    intro q hpos h
    have hpt := fun pq hpq => hpos pq (List.mem_cons_of_mem _ hpq)
    have hdq := hpos (k, d) (List.mem_cons_self _ _)
    simp only [canFullyFillLoop] at h
    simp only [windowSum]
    by_cases h1 : threshold < k
    · rw [if_pos (Or.inr ⟨trivial, h1⟩)] at h
      have := ih q hpt h
      rw [if_neg (fun hc => absurd hc.2 (not_le.mpr h1))]
      omega
    · rw [if_neg (fun hc => hc.elim (fun x => absurd x.1 (by decide))
        (fun x => h1 x.2))] at h
      by_cases h2 : k < price
      · rw [if_pos (Or.inr ⟨trivial, h2⟩)] at h
        have := ih q hpt h
        rw [if_neg (fun hc => absurd hc.1 (not_le.mpr h2))]
        omega
      · rw [if_neg (fun hc => hc.elim (fun x => absurd x.1 (by decide))
          (fun x => h2 x.2))] at h
        rw [if_pos ⟨not_lt.mp h2, not_lt.mp h1⟩]
        by_cases h3 : q ≤ d.quantity
        · have := windowSum_nonneg price threshold t hpt
          omega
        · rw [if_neg h3] at h
          have := ih (q - d.quantity) hpt h
          omega

theorem asksLESum_eraseKey (k p : Int) : ∀ (m : List (Int × List Order))
    (q : List Order), lookupKey k m = some q → k ≤ p →
    asksLESum p m = sumRem q + asksLESum p (eraseKey k m) := by
  intro m
  induction m with
  | nil =>
    intro q h _
    simp [lookupKey] at h
  | cons hd t ih =>
    obtain ⟨k2, l2⟩ := hd
    intro q h hkp
    simp only [lookupKey] at h
    by_cases hk : k = k2
    · rw [if_pos hk] at h
      obtain rfl : l2 = q := by
        injection h
      subst hk
      rw [eraseKey_cons_self]
      simp only [asksLESum, if_pos hkp]
    · rw [if_neg hk] at h
      simp only [eraseKey, if_neg hk, asksLESum]
      rw [ih q h hkp]
      omega

theorem bidsGESum_eraseKey (k p : Int) : ∀ (m : List (Int × List Order))
    (q : List Order), lookupKey k m = some q → p ≤ k →
    bidsGESum p m = sumRem q + bidsGESum p (eraseKey k m) := by
  intro m
  induction m with
  | nil =>
    intro q h _
    simp [lookupKey] at h
  | cons hd t ih =>
    obtain ⟨k2, l2⟩ := hd
    intro q h hkp
    simp only [lookupKey] at h
    by_cases hk : k = k2
    · rw [if_pos hk] at h
      obtain rfl : l2 = q := by
        injection h
      subst hk
      rw [eraseKey_cons_self]
      simp only [bidsGESum, if_pos hkp]
    · rw [if_neg hk] at h
      simp only [eraseKey, if_neg hk, bidsGESum]
      rw [ih q h hkp]
      omega

/-- When every in-window aggregate entry carries exactly the remaining quantity
of the ask queue at its price (and the table has no duplicate keys), the
window's aggregate total is bounded by the crossable ask liquidity. -/
theorem windowSum_le_asksLESum (lo p : Int) :
    ∀ (data : List (Int × LevelData)) (asks : List (Int × List Order)),
    (data.map Prod.fst).Nodup →
    (∀ pq ∈ data, lo ≤ pq.1 → pq.1 ≤ p →
      pq.2.quantity = (sumRem ((lookupKey pq.1 asks).getD []) : Int)) →
    windowSum lo p data ≤ (asksLESum p asks : Int) := by
  intro data
  induction data with
  | nil =>
    intro asks _ _
    simp only [windowSum]
    exact Int.ofNat_nonneg _
  | cons hd t ih =>
    obtain ⟨k, d⟩ := hd
    intro asks hnd hq
    simp only [List.map_cons, List.nodup_cons] at hnd
    simp only [windowSum]
    by_cases hw : lo ≤ k ∧ k ≤ p
    · rw [if_pos hw]
      have hdq := hq (k, d) (List.mem_cons_self _ _) hw.1 hw.2
      cases hlk : lookupKey k asks with
      | none =>
        rw [hlk] at hdq
        simp only [Option.getD_none] at hdq
        have := ih asks hnd.2 (fun pq hpq h1 h2 => hq pq (List.mem_cons_of_mem _ hpq) h1 h2)
        have hz : d.quantity = ((sumRem [] : Nat) : Int) := hdq
        simp only [sumRem] at hz
        omega
      | some ql =>
        rw [hlk] at hdq
        simp only [Option.getD_some] at hdq
        have hsplit := asksLESum_eraseKey k p asks ql hlk hw.2
        have hihh := ih (eraseKey k asks) hnd.2 (fun pq hpq h1 h2 => by
          rw [lookupKey_eraseKey_ne k pq.1 asks
            (fun hc => hnd.1 (hc ▸ List.mem_map.mpr ⟨pq, hpq, rfl⟩))]
          exact hq pq (List.mem_cons_of_mem _ hpq) h1 h2)
        omega
    · rw [if_neg hw]
      have := ih asks hnd.2 (fun pq hpq h1 h2 => hq pq (List.mem_cons_of_mem _ hpq) h1 h2)
      omega

/-- Mirror of `windowSum_le_asksLESum` for the bid side. -/
theorem windowSum_le_bidsGESum (p hi : Int) :
    ∀ (data : List (Int × LevelData)) (bids : List (Int × List Order)),
    (data.map Prod.fst).Nodup →
    (∀ pq ∈ data, p ≤ pq.1 → pq.1 ≤ hi →
      pq.2.quantity = (sumRem ((lookupKey pq.1 bids).getD []) : Int)) →
    windowSum p hi data ≤ (bidsGESum p bids : Int) := by
  intro data
  induction data with
  | nil =>
    intro bids _ _
    simp only [windowSum]
    exact Int.ofNat_nonneg _
  | cons hd t ih =>
    obtain ⟨k, d⟩ := hd
    intro bids hnd hq
    simp only [List.map_cons, List.nodup_cons] at hnd
    simp only [windowSum]
    by_cases hw : p ≤ k ∧ k ≤ hi
    · rw [if_pos hw]
      have hdq := hq (k, d) (List.mem_cons_self _ _) hw.1 hw.2
      cases hlk : lookupKey k bids with
      | none =>
        rw [hlk] at hdq
        simp only [Option.getD_none] at hdq
        have := ih bids hnd.2 (fun pq hpq h1 h2 => hq pq (List.mem_cons_of_mem _ hpq) h1 h2)
        have hz : d.quantity = ((sumRem [] : Nat) : Int) := hdq
        simp only [sumRem] at hz
        omega
      | some ql =>
        rw [hlk] at hdq
        simp only [Option.getD_some] at hdq
        have hsplit := bidsGESum_eraseKey k p bids ql hlk hw.1
        have hihh := ih (eraseKey k bids) hnd.2 (fun pq hpq h1 h2 => by
          rw [lookupKey_eraseKey_ne k pq.1 bids
            (fun hc => hnd.1 (hc ▸ List.mem_map.mpr ⟨pq, hpq, rfl⟩))]
          exact hq pq (List.mem_cons_of_mem _ hpq) h1 h2)
        omega
    · rw [if_neg hw]
      have := ih bids hnd.2 (fun pq hpq h1 h2 => hq pq (List.mem_cons_of_mem _ hpq) h1 h2)
      omega

/-- C3: on a well-formed book whose aggregate table is exact (each entry holds
the combined remaining quantity of the two queues at its price, with no
duplicate keys), `AddOrder` of a FillOrKill order either is rejected with the
book unchanged when `CanFullyFill` is false, or — when `CanFullyFill` is true —
consumes exactly the order's initial quantity: the emitted trades sum to it and
the order is not resident afterwards. -/
theorem addOrder_fok_precheck (b : Book) (o : Order)
    (hty : o.orderType = OrderType.FillOrKill)
    (hfresh : ¬ Resident b o.orderId)
    (hpos : 0 < o.remainingQuantity)
    (hrem : o.remainingQuantity = o.initialQuantity)
    (hsb : List.Chain' (· > ·) (b.bids.map Prod.fst))
    (hsa : List.Chain' (· < ·) (b.asks.map Prod.fst))
    (hnc : ∀ pb ∈ b.bids, ∀ pa ∈ b.asks, pb.1 < pa.1)
    (hnd : (b.orders.map Prod.fst).Nodup)
    (hndD : (b.data.map Prod.fst).Nodup)
    (hexact : ∀ pq ∈ b.data, pq.2.quantity =
      ((sumRem ((lookupKey pq.1 b.bids).getD []) +
        sumRem ((lookupKey pq.1 b.asks).getD []) : Nat) : Int)) :
    (CanFullyFill b o.side o.price o.initialQuantity = false → AddOrder b o = (b, [])) ∧
    (CanFullyFill b o.side o.price o.initialQuantity = true →
      sumTradeQty (AddOrder b o).2 = o.initialQuantity ∧
      ¬ Resident (AddOrder b o).1 o.orderId) := by
  have hlook : lookupKey o.orderId b.orders = none := by
    cases hl : lookupKey o.orderId b.orders with
    | none => rfl
    | some e => exact absurd (Or.inl (by rw [hl]; rfl)) hfresh
  have hfrb : o.orderId ∉ queueIds b.bids := fun hc => hfresh (Or.inr (Or.inl hc))
  have hfra : o.orderId ∉ queueIds b.asks := fun hc => hfresh (Or.inr (Or.inr hc))
  constructor
  · intro hcff
    unfold AddOrder
    simp [hlook, hty, hcff]
  · intro hcff
    have hcm : CanMatch b o.side o.price = true := by
      by_contra hc
      have hc2 : CanMatch b o.side o.price = false := by
        cases hcmv : CanMatch b o.side o.price
        · rfl
        · exact absurd hcmv hc
      unfold CanFullyFill at hcff
      rw [if_pos hc2] at hcff
      exact absurd hcff (by decide)
    have hAddF : AddOrder b o = MatchOrders (insertOrder b o) := by
      unfold AddOrder
      simp [hlook, hty, hcff]
    rw [hAddF]
    cases hside : o.side with
    | Buy =>
      rw [hside] at hcm hcff
      rcases hasks : b.asks with _ | ⟨⟨bestAsk, q0⟩, ta0⟩
      · simp only [CanMatch, hasks] at hcm
        exact absurd hcm (by decide)
      · have hcross : bestAsk ≤ o.price := by
          simp only [CanMatch, hasks] at hcm
          exact of_decide_eq_true hcm
        have hloop : canFullyFillLoop Side.Buy bestAsk o.price b.data
            (o.initialQuantity : Int) = true := by
          unfold CanFullyFill at hcff
          rw [if_neg (by simp [hcm])] at hcff
          rw [hasks] at hcff
          simpa using hcff
        have hwin : (o.initialQuantity : Int) ≤ windowSum bestAsk o.price b.data :=
          canFullyFillLoop_le_buy bestAsk o.price b.data _
            (fun pq hpq => by rw [hexact pq hpq]; exact Int.ofNat_nonneg _) hloop
        have hbid0 : ∀ k : Int, bestAsk ≤ k → lookupKey k b.bids = none := by
          intro k hk
          apply lookupKey_not_mem
          intro hc
          obtain ⟨pb, hpb, hpb2⟩ := List.mem_map.mp hc
          have hlt := hnc pb hpb (bestAsk, q0)
            (by rw [hasks]; exact List.mem_cons_self _ _)
          rw [hpb2] at hlt
          omega
        have hliqN : o.initialQuantity ≤ asksLESum o.price b.asks := by
          have hliq : (o.initialQuantity : Int) ≤ (asksLESum o.price b.asks : Int) := by
            refine le_trans hwin
              (windowSum_le_asksLESum bestAsk o.price b.data b.asks hndD ?_)
            intro pq hpq h1 h2
            rw [hexact pq hpq, hbid0 pq.1 h1]
            simp [sumRem]
          exact_mod_cast hliq
        have hbelow : ∀ pb ∈ b.bids, pb.1 < o.price := by
          intro pb hpb
          have := hnc pb hpb (bestAsk, q0) (by rw [hasks]; exact List.mem_cons_self _ _)
          omega
        have hql : lookupKey o.price b.bids = none := by
          apply lookupKey_not_mem
          intro hc
          obtain ⟨pb, hpb, hpb2⟩ := List.mem_map.mp hc
          exact absurd (hpb2 ▸ hbelow pb hpb) (lt_irrefl _)
        have hins : insertOrder b o =
            ⟨UpdateLevelData b.data o.price o.initialQuantity LevelAction.Add,
             (o.price, [o]) :: b.bids, b.asks,
             setKeySorted ltId o.orderId ⟨Side.Buy, o.price⟩ b.orders⟩ := by
          simp only [insertOrder, hside, hql, Option.getD_none, List.nil_append]
          rw [setKeySorted_front]
          intro pq hpq
          show gtPrice o.price pq.1 = true
          simp only [gtPrice, decide_eq_true_eq]
          exact hbelow pq hpq
        rw [hins]
        set b1 : Book :=
          ⟨UpdateLevelData b.data o.price o.initialQuantity LevelAction.Add,
           (o.price, [o]) :: b.bids, b.asks,
           setKeySorted ltId o.orderId ⟨Side.Buy, o.price⟩ b.orders⟩ with hb1
        have hndI : (b1.orders.map Prod.fst).Nodup :=
          nodup_setKeySorted_fresh ltId o.orderId _ b.orders hlook hnd
        have hfuel : b.asks.length + 1 ≤ bookMeasure b1 := by
          rw [hb1]
          simp only [bookMeasure, queuesLen, List.length_cons, List.length_singleton]
          omega
        rcases matchLoop_top_buy (bookMeasure b1) b1 o.price o b.bids (by rw [hb1])
            hpos (fun pq hpq aq2 haq2 => hnc pq hpq aq2 haq2) hsa hfra hndI hfuel
            with hG | hS
        · obtain ⟨g1, g2, g3, g4⟩ := hG
          rw [matchOrders_eq]
          constructor
          · rw [← hrem]
            exact g4
          · apply not_resident_fakCleanupAsk
            apply not_resident_fakCleanupBid
            intro hres
            rcases hres with h1 | h1 | h1
            · rw [g2] at h1
              simp at h1
            · rw [g1] at h1
              exact hfrb h1
            · exact g3 h1
        · obtain ⟨g1, g2, g3, g4, g5⟩ := hS
          exfalso
          have g3b : sumTradeQty (matchLoopF (bookMeasure b1) b1).trades =
              asksLESum o.price b.asks := g3
          have g2b : sumTradeQty (matchLoopF (bookMeasure b1) b1).trades <
              o.remainingQuantity := g2
          omega
    | Sell =>
      rw [hside] at hcm hcff
      rcases hbids : b.bids with _ | ⟨⟨bestBid, q0⟩, tb0⟩
      · simp only [CanMatch, hbids] at hcm
        exact absurd hcm (by decide)
      · have hcross : o.price ≤ bestBid := by
          simp only [CanMatch, hbids] at hcm
          exact of_decide_eq_true hcm
        have hloop : canFullyFillLoop Side.Sell bestBid o.price b.data
            (o.initialQuantity : Int) = true := by
          unfold CanFullyFill at hcff
          rw [if_neg (by simp [hcm])] at hcff
          rw [hbids] at hcff
          simpa using hcff
        have hwin : (o.initialQuantity : Int) ≤ windowSum o.price bestBid b.data :=
          canFullyFillLoop_le_sell bestBid o.price b.data _
            (fun pq hpq => by rw [hexact pq hpq]; exact Int.ofNat_nonneg _) hloop
        have hask0 : ∀ k : Int, k ≤ bestBid → lookupKey k b.asks = none := by
          intro k hk
          apply lookupKey_not_mem
          intro hc
          obtain ⟨pa, hpa, hpa2⟩ := List.mem_map.mp hc
          have hlt := hnc (bestBid, q0)
            (by rw [hbids]; exact List.mem_cons_self _ _) pa hpa
          rw [hpa2] at hlt
          omega
        have hliqN : o.initialQuantity ≤ bidsGESum o.price b.bids := by
          have hliq : (o.initialQuantity : Int) ≤ (bidsGESum o.price b.bids : Int) := by
            refine le_trans hwin
              (windowSum_le_bidsGESum o.price bestBid b.data b.bids hndD ?_)
            intro pq hpq h1 h2
            rw [hexact pq hpq, hask0 pq.1 h2]
            simp [sumRem]
          exact_mod_cast hliq
        have habove : ∀ pa ∈ b.asks, o.price < pa.1 := by
          intro pa hpa
          have := hnc (bestBid, q0) (by rw [hbids]; exact List.mem_cons_self _ _) pa hpa
          omega
        have hql : lookupKey o.price b.asks = none := by
          apply lookupKey_not_mem
          intro hc
          obtain ⟨pa, hpa, hpa2⟩ := List.mem_map.mp hc
          exact absurd (hpa2 ▸ habove pa hpa) (lt_irrefl _)
        have hins : insertOrder b o =
            ⟨UpdateLevelData b.data o.price o.initialQuantity LevelAction.Add,
             b.bids, (o.price, [o]) :: b.asks,
             setKeySorted ltId o.orderId ⟨Side.Sell, o.price⟩ b.orders⟩ := by
          simp only [insertOrder, hside, hql, Option.getD_none, List.nil_append]
          rw [setKeySorted_front]
          intro pq hpq
          show ltPrice o.price pq.1 = true
          simp only [ltPrice, decide_eq_true_eq]
          exact habove pq hpq
        rw [hins]
        set b1 : Book :=
          ⟨UpdateLevelData b.data o.price o.initialQuantity LevelAction.Add,
           b.bids, (o.price, [o]) :: b.asks,
           setKeySorted ltId o.orderId ⟨Side.Sell, o.price⟩ b.orders⟩ with hb1
        have hndI : (b1.orders.map Prod.fst).Nodup :=
          nodup_setKeySorted_fresh ltId o.orderId _ b.orders hlook hnd
        have hfuel : b.bids.length + 1 ≤ bookMeasure b1 := by
          rw [hb1]
          simp only [bookMeasure, queuesLen, List.length_cons, List.length_singleton]
          omega
        rcases matchLoop_top_sell (bookMeasure b1) b1 o.price o b.asks (by rw [hb1])
            hpos (fun pq hpq bq2 hbq2 => hnc bq2 hbq2 pq hpq) hsb hfrb hndI hfuel
            with hG | hS
        · obtain ⟨g1, g2, g3, g4⟩ := hG
          rw [matchOrders_eq]
          constructor
          · rw [← hrem]
            exact g4
          · apply not_resident_fakCleanupAsk
            apply not_resident_fakCleanupBid
            intro hres
            rcases hres with h1 | h1 | h1
            · rw [g2] at h1
              simp at h1
            · exact g3 h1
            · rw [g1] at h1
              exact hfra h1
        · obtain ⟨g1, g2, g3, g4, g5⟩ := hS
          exfalso
          have g3b : sumTradeQty (matchLoopF (bookMeasure b1) b1).trades =
              bidsGESum o.price b.bids := g3
          have g2b : sumTradeQty (matchLoopF (bookMeasure b1) b1).trades <
              o.remainingQuantity := g2
          omega

theorem addOrder_fok_precheck_witness :
    (CanFullyFill wBookS Side.Buy 102 8 = false →
      AddOrder wBookS ⟨OrderType.FillOrKill, 70, Side.Buy, 102, 8, 8⟩ = (wBookS, [])) ∧
    (CanFullyFill wBookS Side.Buy 102 8 = true →
      sumTradeQty (AddOrder wBookS ⟨OrderType.FillOrKill, 70, Side.Buy, 102, 8, 8⟩).2 = 8 ∧
      ¬ Resident (AddOrder wBookS ⟨OrderType.FillOrKill, 70, Side.Buy, 102, 8, 8⟩).1 70) :=
  addOrder_fok_precheck wBookS ⟨OrderType.FillOrKill, 70, Side.Buy, 102, 8, 8⟩
    rfl (by decide) (by decide) rfl
    (by show List.Chain' (· > ·) ([] : List Int); exact List.chain'_nil)
    (by show List.Chain' (· < ·) ([101, 102] : List Int)
        exact List.chain'_cons.mpr ⟨by norm_num, List.chain'_singleton _⟩)
    (by decide) (by decide) (by decide) (by decide)

/-- Every trade of the matching loop carries, on each of its two fills, the id
and the own limit price of an order residing on that side of the input book:
the reported prices are the residing orders' prices, never a synthetic value
such as a midpoint. -/
theorem matchLoopF_trades_own (f : Nat) : ∀ (b : Book), ∀ t ∈ (matchLoopF f b).trades,
    (∃ pq ∈ b.bids, ∃ ob ∈ pq.2,
      t.bidTrade.orderId = ob.orderId ∧ t.bidTrade.price = ob.price) ∧
    (∃ pq ∈ b.asks, ∃ oa ∈ pq.2,
      t.askTrade.orderId = oa.orderId ∧ t.askTrade.price = oa.price) := by
  induction f with
  | zero =>
    intro b t ht
    simp [matchLoopF] at ht
  | succ f ih =>
    intro b t ht
    obtain ⟨bd, bb, ba, bo⟩ := b
    cases bb with
    | nil => simp [matchLoopF] at ht
    | cons bhd tb =>
      cases ba with
      | nil => simp [matchLoopF] at ht
      | cons ahd ta =>
        obtain ⟨bp, bidQ⟩ := bhd
        obtain ⟨ap, askQ⟩ := ahd
        by_cases hlt : bp < ap
        · dsimp only [matchLoopF] at ht
          rw [if_pos hlt] at ht
          simp at ht
        · dsimp only [matchLoopF] at ht
          rw [if_neg hlt] at ht
          simp only [fillLoop] at ht
          rcases List.mem_append.mp ht with h1 | h1
          · have hbr : (fillLoopF (bidQ.length + askQ.length) bidQ askQ bd bo).trades =
                (fillQT (bidQ.length + askQ.length) bidQ askQ).trades :=
              (fillLoopF_eq_fillQT _ _ _ _ _).2.2
            rw [hbr] at h1
            have hsh := (fillQT_main (bidQ.length + askQ.length) bidQ askQ).2.2.2.2.1 t h1
            obtain ⟨ob, hob, hobid, hobp⟩ := hsh.2.1
            obtain ⟨oa, hoa, hoaid, hoap⟩ := hsh.2.2
            exact ⟨⟨(bp, bidQ), List.mem_cons_self _ _, ob, hob, hobid, hobp⟩,
                   ⟨(ap, askQ), List.mem_cons_self _ _, oa, hoa, hoaid, hoap⟩⟩
          · obtain ⟨hB, hA⟩ := ih _ t h1
            constructor
            · obtain ⟨pq3, hpq3, ob, hob, hobid, hobp⟩ := hB
              simp only at hpq3
              split at hpq3
              · exact ⟨pq3, eraseKey_mem _ _ pq3 hpq3, ob, hob, hobid, hobp⟩
              · rcases mem_setKeySorted _ _ _ _ pq3 hpq3 with h2 | h2
                · subst h2
                  have hbr2 : (fillLoopF (bidQ.length + askQ.length) bidQ askQ bd bo).bq =
                      (fillQT (bidQ.length + askQ.length) bidQ askQ).bq :=
                    (fillLoopF_eq_fillQT _ _ _ _ _).1
                  rw [hbr2] at hob
                  obtain ⟨ob2, hob2, hw⟩ :=
                    (fillQT_main (bidQ.length + askQ.length) bidQ askQ).2.2.1 ob hob
                  exact ⟨(bp, bidQ), List.mem_cons_self _ _, ob2, hob2,
                    hobid.trans hw.1, hobp.trans hw.2.1⟩
                · exact ⟨pq3, h2, ob, hob, hobid, hobp⟩
            · obtain ⟨pq3, hpq3, oa, hoa, hoaid, hoap⟩ := hA
              simp only at hpq3
              split at hpq3
              · exact ⟨pq3, eraseKey_mem _ _ pq3 hpq3, oa, hoa, hoaid, hoap⟩
              · rcases mem_setKeySorted _ _ _ _ pq3 hpq3 with h2 | h2
                · subst h2
                  have hbr2 : (fillLoopF (bidQ.length + askQ.length) bidQ askQ bd bo).aq =
                      (fillQT (bidQ.length + askQ.length) bidQ askQ).aq :=
                    (fillLoopF_eq_fillQT _ _ _ _ _).2.1
                  rw [hbr2] at hoa
                  obtain ⟨oa2, hoa2, hw⟩ :=
                    (fillQT_main (bidQ.length + askQ.length) bidQ askQ).2.2.2.1 oa hoa
                  exact ⟨(ap, askQ), List.mem_cons_self _ _, oa2, hoa2,
                    hoaid.trans hw.1, hoap.trans hw.2.1⟩
                · exact ⟨pq3, h2, oa, hoa, hoaid, hoap⟩

/-- Combined per-trade facts of `MatchOrders` on a price-coherent book: equal
fill quantities, no crossing of the makers' limits, and each fill carrying the
id and the own price of an order residing on its side of the input book. -/
theorem matchOrders_trade_facts (b2 : Book) (hcb : PriceCoherent b2.bids)
    (hca : PriceCoherent b2.asks) : ∀ t ∈ (MatchOrders b2).2,
    t.bidTrade.quantity = t.askTrade.quantity ∧
    t.askTrade.price ≤ t.bidTrade.price ∧
    (∃ pq ∈ b2.bids, ∃ ob ∈ pq.2,
      t.bidTrade.orderId = ob.orderId ∧ t.bidTrade.price = ob.price) ∧
    (∃ pq ∈ b2.asks, ∃ oa ∈ pq.2,
      t.askTrade.orderId = oa.orderId ∧ t.askTrade.price = oa.price) := by
  intro t ht
  have hwf := matchOrders_trades_wf b2 hcb hca t ht
  have hown := matchLoopF_trades_own (bookMeasure b2) b2 t (by
    rw [matchOrders_eq] at ht
    exact ht)
  exact ⟨hwf.2, hwf.1, hown.1, hown.2⟩

/-- C6: on a price-coherent book, every trade emitted by `AddOrder` has equal
traded quantity on both fills, the bid fill's price at least the ask fill's
price (no trade crosses the makers' limits), and each fill carries the id and
the own limit price of an order residing on that side of the matched book —
the reported prices are the residing orders' prices, not a midpoint; moreover
every step of the inner matching loop emits the trade between the two front
orders with quantity the minimum of their remaining quantities, reported at
those two orders' own prices. -/
theorem addOrder_trades_wellformed (b : Book) (o : Order)
    (hcb : PriceCoherent b.bids) (hca : PriceCoherent b.asks) :
    (∀ t ∈ (AddOrder b o).2,
      t.bidTrade.quantity = t.askTrade.quantity ∧
      t.askTrade.price ≤ t.bidTrade.price ∧
      ∃ b2, AddOrder b o = MatchOrders b2 ∧
        (∃ pq ∈ b2.bids, ∃ ob ∈ pq.2,
          t.bidTrade.orderId = ob.orderId ∧ t.bidTrade.price = ob.price) ∧
        (∃ pq ∈ b2.asks, ∃ oa ∈ pq.2,
          t.askTrade.orderId = oa.orderId ∧ t.askTrade.price = oa.price)) ∧
    (∀ (f : Nat) (bid ask : Order) (bqt aqt : List Order)
        (d : List (Int × LevelData)) (os : List (Nat × OrderEntry)),
      ∃ rest, (fillLoopF (f + 1) (bid :: bqt) (ask :: aqt) d os).trades =
        (⟨⟨bid.orderId, bid.price, min bid.remainingQuantity ask.remainingQuantity⟩,
          ⟨ask.orderId, ask.price,
            min bid.remainingQuantity ask.remainingQuantity⟩⟩ : Trade) :: rest) := by
  constructor
  · intro t ht
    by_cases hdup : (lookupKey o.orderId b.orders).isSome = true
    · have hAdd0 : AddOrder b o = (b, []) := by
        unfold AddOrder
        rw [if_pos hdup]
      rw [hAdd0] at ht
      simp at ht
    · by_cases hm : o.orderType = OrderType.Market
      · cases hside : o.side with
        | Buy =>
          rcases hlast : b.asks.getLast? with _ | ⟨w, qL⟩
          · have hAdd0 : AddOrder b o = (b, []) := by
              unfold AddOrder
              simp [hdup, hm, hside, hlast]
            rw [hAdd0] at ht
            simp at ht
          · have hAdd : AddOrder b o =
                MatchOrders (insertOrder b (o.ToGoodTillCancel w)) := by
              unfold AddOrder
              simp [hdup, hm, hside, hlast, Order.ToGoodTillCancel]
            rw [hAdd] at ht
            have hc := insertOrder_coherent b (o.ToGoodTillCancel w) hcb hca
            have hf := matchOrders_trade_facts _ hc.1 hc.2 t ht
            exact ⟨hf.1, hf.2.1, _, hAdd, hf.2.2.1, hf.2.2.2⟩
        | Sell =>
          rcases hlast : b.bids.getLast? with _ | ⟨w, qL⟩
          · have hAdd0 : AddOrder b o = (b, []) := by
              unfold AddOrder
              simp [hdup, hm, hside, hlast]
            rw [hAdd0] at ht
            simp at ht
          · have hAdd : AddOrder b o =
                MatchOrders (insertOrder b (o.ToGoodTillCancel w)) := by
              unfold AddOrder
              simp [hdup, hm, hside, hlast, Order.ToGoodTillCancel]
            rw [hAdd] at ht
            have hc := insertOrder_coherent b (o.ToGoodTillCancel w) hcb hca
            have hf := matchOrders_trade_facts _ hc.1 hc.2 t ht
            exact ⟨hf.1, hf.2.1, _, hAdd, hf.2.2.1, hf.2.2.2⟩
      · by_cases hfb : o.orderType = OrderType.FillAndKill ∧
            CanMatch b o.side o.price = false
        · have hAdd0 : AddOrder b o = (b, []) := by
            unfold AddOrder
            simp [hdup, hm, hfb.1, hfb.2]
          rw [hAdd0] at ht
          simp at ht
        · by_cases hfo : o.orderType = OrderType.FillOrKill ∧
              CanFullyFill b o.side o.price o.initialQuantity = false
          · have hAdd0 : AddOrder b o = (b, []) := by
              unfold AddOrder
              simp [hdup, hfo.1, hfo.2]
            rw [hAdd0] at ht
            simp at ht
          · have hAdd : AddOrder b o = MatchOrders (insertOrder b o) := by
              unfold AddOrder
              rw [if_neg hdup]
              simp only [if_neg hm]
              rw [if_neg hfb, if_neg hfo]
            rw [hAdd] at ht
            have hc := insertOrder_coherent b o hcb hca
            have hf := matchOrders_trade_facts _ hc.1 hc.2 t ht
            exact ⟨hf.1, hf.2.1, _, hAdd, hf.2.2.1, hf.2.2.2⟩
  · intro f bid ask bqt aqt d os
    exact ⟨_, rfl⟩

theorem addOrder_trades_wellformed_witness :
    ((⟨⟨20, 102, 5⟩, ⟨10, 101, 5⟩⟩ : Trade).bidTrade.quantity =
        (⟨⟨20, 102, 5⟩, ⟨10, 101, 5⟩⟩ : Trade).askTrade.quantity ∧
      (⟨⟨20, 102, 5⟩, ⟨10, 101, 5⟩⟩ : Trade).askTrade.price ≤
        (⟨⟨20, 102, 5⟩, ⟨10, 101, 5⟩⟩ : Trade).bidTrade.price ∧
      (∃ b2, AddOrder wBookS ⟨OrderType.GoodTillCancel, 20, Side.Buy, 102, 8, 8⟩ =
          MatchOrders b2 ∧
        (∃ pq ∈ b2.bids, ∃ ob ∈ pq.2,
          (⟨⟨20, 102, 5⟩, ⟨10, 101, 5⟩⟩ : Trade).bidTrade.orderId = ob.orderId ∧
          (⟨⟨20, 102, 5⟩, ⟨10, 101, 5⟩⟩ : Trade).bidTrade.price = ob.price) ∧
        (∃ pq ∈ b2.asks, ∃ oa ∈ pq.2,
          (⟨⟨20, 102, 5⟩, ⟨10, 101, 5⟩⟩ : Trade).askTrade.orderId = oa.orderId ∧
          (⟨⟨20, 102, 5⟩, ⟨10, 101, 5⟩⟩ : Trade).askTrade.price = oa.price))) ∧
    (∃ rest, (fillLoopF 1 [⟨OrderType.GoodTillCancel, 1, Side.Buy, 102, 8, 8⟩]
        [⟨OrderType.GoodTillCancel, 2, Side.Sell, 101, 5, 5⟩] [] []).trades =
      (⟨⟨1, 102, 5⟩, ⟨2, 101, 5⟩⟩ : Trade) :: rest) :=
  ⟨(addOrder_trades_wellformed wBookS ⟨OrderType.GoodTillCancel, 20, Side.Buy, 102, 8, 8⟩
      (by decide) (by decide)).1 ⟨⟨20, 102, 5⟩, ⟨10, 101, 5⟩⟩ (by decide),
   (addOrder_trades_wellformed wBookS ⟨OrderType.GoodTillCancel, 20, Side.Buy, 102, 8, 8⟩
      (by decide) (by decide)).2 0 ⟨OrderType.GoodTillCancel, 1, Side.Buy, 102, 8, 8⟩
      ⟨OrderType.GoodTillCancel, 2, Side.Sell, 101, 5, 5⟩ [] [] [] []⟩
